import Mathlib

/-!
# Verification of the SyferText tokenizer core (`syfertext/tokenizer.py`)

This file gives a shallow embedding of the tokenization engine of the
repository and proves or refutes the specified properties.

Modelling conventions:
* A document is a `List Char`; Python string slicing `s[a:b]` becomes
  `(s.take b).drop a`, `s[a:]` becomes `s.drop a`, and `s[:-k]` (with `k ≥ 1`)
  becomes `s.take (s.length - k)`.
* Python `int` positions are modelled by `Int` (the code can produce `-1`
  via `pos + len - 1` on degenerate data, so `Nat` would be unfaithful).
* The caller-supplied matchers (`find_prefix`, `find_suffix`,
  `find_infix`, and the special-case table) are opaque configuration,
  modelled as plain functions in `TokenizerCfg`.  `find_prefix`/`find_suffix`
  return a match length, `0` meaning "no match" (exactly the value the
  Python wrappers produce for `None` search results or zero-length matches);
  `find_infix` returns the list of `(match.start(), match.end())` pairs.
* Fallible operations (`text[0]` on an empty string, `list.pop()` on an
  empty container, a non-terminating affix loop) are modelled with
  `Option`: `none` is the Python call raising or diverging.
* `char.isspace()` is modelled by `Char.isWhitespace`; none of the verified
  properties depend on exactly which characters count as whitespace.
-/

set_option linter.unusedVariables false
set_option synthInstance.maxSize 1024

/-- Model of the `TokenMeta` class: start/end offsets of a token in the
document text (the end index is part of the token; `none` models Python's
`None`, "extends to document end"), whether a white space follows, and
whether the token is itself made of white spaces. -/
structure TokenMeta where
  start_pos : Int
  end_pos : Option Int
  space_after : Bool
  is_space : Bool
deriving DecidableEq, Repr

/-- The matcher/exception configuration of a `Tokenizer` instance:
`preLen` models `find_prefix` (length of the prefix pattern match, `0` for
none), `sufLen` models `find_suffix`, `infMatches` models `find_infix`
(the ordered `(start, end)` pairs of the infix matches), and `specials`
models the `special_cases` dict, mapping a token text to the list of its
sub-token texts (each entry's `ORTH` field). -/
structure TokenizerCfg where
  preLen : List Char → Nat
  sufLen : List Char → Nat
  infMatches : List Char → List (Nat × Nat)
  specials : List Char → Option (List (List Char))

namespace Tok

/-- Model of `Tokenizer._get_prefix_token_meta`: returns the prefix token
meta (or `None` for a zero-length match), the substring with the prefix
removed, and the updated position. -/
def preTokenMeta (cfg : TokenizerCfg) (s : List Char) (pos : Int) :
    Option TokenMeta × List Char × Int :=
  let k := cfg.preLen s
  if k = 0 then (none, s, pos)
  else
    let e := pos + k - 1
    (some ⟨pos, some e, false, false⟩, s.drop k, e + 1)

/-- Model of `Tokenizer._get_suffix_token_meta`: returns the suffix token
meta (or `None` for a zero-length match) and the substring with the suffix
removed (`substring[:-suff_len]`). -/
def sufTokenMeta (cfg : TokenizerCfg) (s : List Char) (pos : Int) :
    Option TokenMeta × List Char :=
  let k := cfg.sufLen s
  if k = 0 then (none, s)
  else
    let ps := pos + (s.length : Int) - k
    let es := ps + k - 1
    (some ⟨ps, some es, false, false⟩, s.take (s.length - k))

/-- Model of `Tokenizer._get_special_cases_token_meta`: one token per
`ORTH` entry, consuming the declared lengths (`end_pos = pos + len(ORTH) - 1`,
then `pos = end_pos + 1`), with no consistency check against the key. -/
def specialTokenMeta : List (List Char) → Int → List TokenMeta
  | [], _ => []
  | orth :: rest, pos =>
    let e := pos + (orth.length : Int) - 1
    ⟨pos, some e, false, false⟩ :: specialTokenMeta rest (e + 1)

/-- Model of the `for match in infixes` loop of
`Tokenizer._get_infix_token_meta`.  State `(pos, off, e)` mirrors the
Python locals `(pos, offset, end_pos)`; for each match, a token is
emitted for the non-empty gap `substring[offset:match.start()]` and for
the non-empty matched region `substring[match.start():match.end()]`.
Returns the emitted tokens and the final `(pos, offset, end_pos)`. -/
def infLoop (s : List Char) : List (Nat × Nat) → Int → Nat → Int →
    List TokenMeta × Int × Nat × Int
  | [], pos, off, e => ([], pos, off, e)
  | (st, en) :: rest, pos, off, e =>
    let gap := (s.take st).drop off
    let step1 : List TokenMeta × Int × Int :=
      if gap.length ≠ 0 then
        let e' := pos + (gap.length : Int) - 1
        ([⟨pos, some e', false, false⟩], e' + 1, e')
      else ([], pos, e)
    match step1 with
    | (ts1, pos1, e1) =>
      let seg := (s.take en).drop st
      let step2 : List TokenMeta × Int × Int :=
        if seg.length ≠ 0 then
          let e' := pos1 + (seg.length : Int) - 1
          ([⟨pos1, some e', false, false⟩], e' + 1, e')
        else ([], pos1, e1)
      match step2 with
      | (ts2, pos2, e2) =>
        match infLoop s rest pos2 en e2 with
        | (ts3, pos3, off3, e3) => (ts1 ++ ts2 ++ ts3, pos3, off3, e3)

/-- Model of `Tokenizer._get_infix_token_meta`: runs the match loop
(with `offset = 0` and `end_pos = 0` initially, as in the source), then
emits a token for the non-empty leftover `substring[offset:]`, recomputing
`pos` as `end_pos + 1` exactly as the source does. -/
def infTokenMeta (s : List Char) (pos : Int) (ms : List (Nat × Nat)) :
    List TokenMeta :=
  match infLoop s ms pos 0 0 with
  | (ts, _, off, e) =>
    let left := s.drop off
    if left.length ≠ 0 then
      let p2 := e + 1
      let e2 := p2 + (left.length : Int) - 1
      ts ++ [⟨p2, some e2, false, false⟩]
    else ts

/-- Model of the `while self.find_prefix(substring) or
self.find_suffix(substring)` loop of `Tokenizer._split_affixes`, with an
explicit fuel (the Python loop can diverge for matchers that report a
positive match length on the empty string; `none` models divergence).
Each iteration: break if the substring is a special-case key; strip a
prefix if one matches, then break if the new substring is a key; strip a
suffix if one matches; repeat. -/
def affixLoop (cfg : TokenizerCfg) :
    Nat → List Char → Int → List TokenMeta → List TokenMeta →
    Option (List Char × Int × List TokenMeta × List TokenMeta)
  | 0, _, _, _, _ => none
  | fuel + 1, s, pos, pres, sufs =>
    if cfg.preLen s = 0 ∧ cfg.sufLen s = 0 then some (s, pos, pres, sufs)
    else if (cfg.specials s).isSome then some (s, pos, pres, sufs)
    else
      let stepPre : List TokenMeta × List Char × Int :=
        if cfg.preLen s ≠ 0 then
          match preTokenMeta cfg s pos with
          | (some tm, s', p') => (pres ++ [tm], s', p')
          | (none, s', p') => (pres, s', p')
        else (pres, s, pos)
      match stepPre with
      | (pres1, s1, pos1) =>
        if cfg.preLen s ≠ 0 ∧ (cfg.specials s1).isSome then
          some (s1, pos1, pres1, sufs)
        else
          let stepSuf : List TokenMeta × List Char :=
            if cfg.sufLen s1 ≠ 0 then
              match sufTokenMeta cfg s1 pos1 with
              | (some tm, s') => (sufs ++ [tm], s')
              | (none, s') => (sufs, s')
            else (sufs, s1)
          match stepSuf with
          | (sufs1, s2) => affixLoop cfg fuel s2 pos1 pres1 sufs1

/-- Model of `Tokenizer._split_affixes`: for a non-empty substring, run
the affix-stripping loop (fuel `length + 1` suffices for any matcher that
never reports a match longer than its input, see `affixLoop_total`), then
resolve the remaining substring through the special-case table or the
infix matcher.  Returns
`(substring, pos, prefixes, suffixes, infixes, special_tokens)`. -/
def splitAffixes (cfg : TokenizerCfg) (s : List Char) (pos : Int) :
    Option (List Char × Int × List TokenMeta × List TokenMeta ×
      List TokenMeta × List TokenMeta) :=
  if s.length = 0 then some (s, pos, [], [], [], [])
  else
    match affixLoop cfg (s.length + 1) s pos [] [] with
    | none => none
    | some (s1, pos1, pres, sufs) =>
      match cfg.specials s1 with
      | some entry => some ([], pos1, pres, sufs, [], specialTokenMeta entry pos1)
      | none =>
        if cfg.infMatches s1 ≠ [] then
          some ([], pos1, pres, sufs, infTokenMeta s1 pos1 (cfg.infMatches s1), [])
        else some (s1, pos1, pres, sufs, [], [])

/-- Replace the `space_after` flag of the last element of a list,
modelling the `pop` / mutate / `append` sequence at the end of
`Tokenizer._attach_tokens` (for a non-empty list). -/
def setLastSpace (sa : Bool) : List TokenMeta → List TokenMeta
  | [] => []
  | [t] => [{ t with space_after := sa }]
  | t :: u :: rest => t :: setLastSpace sa (u :: rest)

/-- The token of the remaining core substring, when it is non-empty
(the `if substring:` block of `Tokenizer._attach_tokens`). -/
def coreTokens (s : List Char) (pos : Int) : List TokenMeta :=
  if s.length ≠ 0 then [⟨pos, some (pos + (s.length : Int) - 1), false, false⟩]
  else []

/-- The tokens a single non-space run contributes to the document, in the
order `Tokenizer._attach_tokens` appends them: prefixes, special-case
tokens, the core token, infix tokens, reversed suffixes. -/
def runTokens (s : List Char) (pos : Int)
    (pres sufs infs specs : List TokenMeta) : List TokenMeta :=
  pres ++ specs ++ coreTokens s pos ++ infs ++ sufs.reverse

/-- Model of `Tokenizer._attach_tokens`: extend the document container
with the run's tokens, then pop the last token, overwrite its
`space_after` with the original run's flag, and push it back.  `none`
models the `IndexError` of `pop()` on an empty container. -/
def attachTokens (doc : List TokenMeta) (s : List Char) (pos : Int)
    (sa : Bool) (pres sufs infs specs : List TokenMeta) :
    Option (List TokenMeta) :=
  let d1 := doc ++ pres ++ specs
  let d2 := if s.length ≠ 0 then
      d1 ++ [⟨pos, some (pos + (s.length : Int) - 1), false, false⟩]
    else d1
  let d3 := d2 ++ infs ++ sufs.reverse
  if d3.length = 0 then none
  else some (setLastSpace sa d3)

/-- Model of `Tokenizer._tokenize`: split the substring into affixes /
special cases / infixes at `token_meta.start_pos`, then attach all token
metas to the document, fixing up the trailing-space flag from
`token_meta.space_after`. -/
def tokenizeRun (cfg : TokenizerCfg) (s : List Char) (tm : TokenMeta)
    (doc : List TokenMeta) : Option (List TokenMeta) :=
  match splitAffixes cfg s tm.start_pos with
  | none => none
  | some (s1, pos1, pres, sufs, infs, specs) =>
    attachTokens doc s1 pos1 tm.space_after pres sufs infs specs

/-- The run-boundary block of one iteration of the
`for i, char in enumerate(text)` loop of `Tokenizer.__call__`: if
`is_current_space != is_space`, the run `[pos, i-1]` is closed — emitted
directly if it is a whitespace run, otherwise handed to the affix
cascade — and `pos` and `is_space` are updated (`pos = i + 1` when the
closing character is a space, skipping it; `pos = i` otherwise). -/
def stepTrans (cfg : TokenizerCfg) (text : List Char) (i : Nat)
    (pos : Nat) (isSp : Bool) (doc : List TokenMeta) :
    Option (Nat × Bool × List TokenMeta) :=
  let ics := (text.getD i ' ').isWhitespace
  if ics = isSp then some (pos, isSp, doc)
  else
    let tm : TokenMeta := ⟨(pos : Int), some ((i : Int) - 1), ics, isSp⟩
    let doc1 : Option (List TokenMeta) :=
      if isSp then some (doc ++ [tm])
      else tokenizeRun cfg ((text.take i).drop pos) tm doc
    doc1.map (fun d1 =>
      (if ics then i + 1 else i,
       if (if ics then i + 1 else i) < text.length then
         (text.getD (if ics then i + 1 else i) ' ').isWhitespace
       else isSp,
       d1))

/-- The final-token block of the loop iteration: when `i` is the last
index and `pos <= i`, the open run `text[pos:]` is closed with
`end_pos = None`, emitted directly for a whitespace run or handed to the
affix cascade otherwise. -/
def stepLast (cfg : TokenizerCfg) (text : List Char) (i : Nat)
    (pos1 : Nat) (isSp1 : Bool) (d1 : List TokenMeta) :
    Option (Nat × Bool × List TokenMeta) :=
  let ics := (text.getD i ' ').isWhitespace
  if i = text.length - 1 ∧ pos1 ≤ i then
    let tm2 : TokenMeta := ⟨(pos1 : Int), none, ics, isSp1⟩
    let d2 : Option (List TokenMeta) :=
      if isSp1 then some (d1 ++ [tm2])
      else tokenizeRun cfg (text.drop pos1) tm2 d1
    d2.map (fun d2x => (pos1, isSp1, d2x))
  else some (pos1, isSp1, d1)

/-- One full iteration of the index loop of `Tokenizer.__call__`:
the run-boundary block followed by the final-token block. -/
def stepIdx (cfg : TokenizerCfg) (text : List Char) (i : Nat)
    (pos : Nat) (isSp : Bool) (doc : List TokenMeta) :
    Option (Nat × Bool × List TokenMeta) :=
  (stepTrans cfg text i pos isSp doc).bind
    (fun st => stepLast cfg text i st.1 st.2.1 st.2.2)

/-- The scan of `Tokenizer.__call__` over the character indices of the
text, carrying the `(pos, is_space, doc)` state. -/
def tokenizeSteps (cfg : TokenizerCfg) (text : List Char) :
    List Nat → Nat → Bool → List TokenMeta → Option (List TokenMeta)
  | [], _, _, doc => some doc
  | i :: rest, pos, isSp, doc =>
    (stepIdx cfg text i pos isSp doc).bind
      (fun st => tokenizeSteps cfg text rest st.1 st.2.1 st.2.2)

/-- Model of `Tokenizer.__call__` on a locally supplied text: the initial
state reads `text[0].isspace()`, which raises `IndexError` on the empty
string (`none`); otherwise the index loop runs over `range(len(text))`
starting from `pos = 0` with an empty document container. -/
def tokenizeText (cfg : TokenizerCfg) (text : List Char) :
    Option (List TokenMeta) :=
  match text with
  | [] => none
  | c :: _ => tokenizeSteps cfg text (List.range text.length) 0 c.isWhitespace []

end Tok

namespace Tok

/-! ## Specification-side predicates -/

/-- `TilesTo L a b`: the token metas `L` exactly tile the half-open
position interval `[a, b)`: the first token starts at `a`, each token's
`end_pos` is defined and the next token starts right after it, and the
interval is exhausted at `b`.  (A token may be empty, `end = start - 1`.) -/
def TilesTo : List TokenMeta → Int → Int → Prop
  | [], a, b => a = b
  | t :: ts, a, b =>
    t.start_pos = a ∧ ∃ e, t.end_pos = some e ∧ a ≤ e + 1 ∧ TilesTo ts (e + 1) b

/-- `ChainTo L a b`: like `TilesTo`, but a token flagged `space_after`
additionally accounts for one skipped character after its end (the single
white space the scanner jumps over with `pos = i + 1`). -/
def ChainTo : List TokenMeta → Int → Int → Prop
  | [], a, b => a = b
  | t :: ts, a, b =>
    t.start_pos = a ∧ ∃ e, t.end_pos = some e ∧ a ≤ e + 1 ∧
      ChainTo ts (e + 1 + (if t.space_after then 1 else 0)) b

/-- Effective end of a token in a document of length `n`: the recorded
`end_pos`, with the `None` sentinel meaning the last index `n - 1`. -/
def effEnd (n : Nat) (t : TokenMeta) : Int :=
  match t.end_pos with
  | some e => e
  | none => (n : Int) - 1

/-- `ChainEnd n L a`: the non-empty span list `L` starts at `a`, adjacent
spans satisfy `next.start = prev.end + 1` plus one for a skipped white
space when `prev.space_after` is set, and the last span — whose
`end_pos` may be the open-to-end sentinel — accounts for the document
end: its effective end, plus one if it is a non-whitespace span with
`space_after` set, equals `n - 1`. -/
def ChainEnd (n : Nat) : List TokenMeta → Int → Prop
  | [], _ => False
  | [t], a =>
    t.start_pos = a ∧
      effEnd n t + (if t.space_after ∧ t.is_space = false then 1 else 0) =
        (n : Int) - 1
  | t :: u :: rest, a =>
    t.start_pos = a ∧ ∃ e, t.end_pos = some e ∧ a ≤ e + 1 ∧
      ChainEnd n (u :: rest) (e + 1 + (if t.space_after then 1 else 0))

/-- The slice of the document between positions `a` (inclusive) and `b`
(exclusive), i.e. Python `text[a:b]`. -/
def sliceI (text : List Char) (a b : Int) : List Char :=
  (text.take b.toNat).drop a.toNat

/-- The substring of the document denoted by a span's `start_pos`/`end_pos`
(the `None` end meaning "to document end", `text[pos:]`). -/
def sliceTok (text : List Char) (t : TokenMeta) : List Char :=
  match t.end_pos with
  | some e => sliceI text t.start_pos (e + 1)
  | none => text.drop t.start_pos.toNat

/-- Concatenation of the substrings denoted by a span sequence — the
reconstruction the specification claims to be lossless. -/
def plainConcat (text : List Char) (L : List TokenMeta) : List Char :=
  L.flatMap (sliceTok text)

/-- A span's substring followed by the single skipped white-space
character that a set `space_after` flag of a non-whitespace span records
(the character at `end_pos + 1`). -/
def reconTok (text : List Char) (t : TokenMeta) : List Char :=
  sliceTok text t ++
    (if t.space_after && !t.is_space then
      (match t.end_pos with
       | some e => sliceI text (e + 1) (e + 2)
       | none => [])
    else [])

/-- Gap-aware reconstruction of the document from its span sequence. -/
def reconAll (text : List Char) (L : List TokenMeta) : List Char :=
  L.flatMap (reconTok text)

/-- The adjacency relation the specification claims between consecutive
spans: the second starts exactly one past the first's recorded end. -/
def plainAdj (t u : TokenMeta) : Prop :=
  match t.end_pos with
  | some e => u.start_pos = e + 1
  | none => False

instance (t u : TokenMeta) : Decidable (plainAdj t u) := by
  unfold plainAdj
  match t.end_pos with
  | some e => exact inferInstanceAs (Decidable (_ = _))
  | none => exact inferInstanceAs (Decidable False)

/-- Well-formedness of an infix match list over a string of length `n`,
starting no earlier than `lo`: matches are in increasing position order,
non-overlapping, within bounds, and of non-zero length (what
`re.finditer` produces for a pattern that cannot match the empty
string). -/
def MatchesOK (lo n : Nat) : List (Nat × Nat) → Prop
  | [] => True
  | (st, en) :: rest => lo ≤ st ∧ st < en ∧ en ≤ n ∧ MatchesOK en n rest

/-- Match lists in increasing order and within bounds where every
zero-length match sits exactly at the scan offset reached so far (the
position where the previous match ended). -/
def ZeroAtOff (n : Nat) : Nat → List (Nat × Nat) → Prop
  | _, [] => True
  | off, (st, en) :: rest =>
    off ≤ st ∧ st ≤ en ∧ en ≤ n ∧ (st = en → st = off) ∧ ZeroAtOff n en rest

instance instDecidableZeroAtOff (n : Nat) :
    ∀ (off : Nat) (ms : List (Nat × Nat)), Decidable (ZeroAtOff n off ms)
  | _, [] => isTrue trivial
  | off, (st, en) :: rest =>
    have : Decidable (ZeroAtOff n en rest) := instDecidableZeroAtOff n en rest
    inferInstanceAs (Decidable (_ ∧ _ ∧ _ ∧ _ ∧ _))

/-- Remove the zero-length matches from a match list. -/
def dropDegenerate (ms : List (Nat × Nat)) : List (Nat × Nat) :=
  ms.filter (fun m => m.1 < m.2)

/-- Well-formed matcher configuration: prefix/suffix matchers never
report a match longer than their input (true of any `re.search`-backed
matcher), infix match lists are ordered, in-bounds, non-overlapping and
of non-zero length, and every special-case entry's sub-token lengths sum
to the length of its key. -/
structure WFcfg (cfg : TokenizerCfg) : Prop where
  pre_le : ∀ s, cfg.preLen s ≤ s.length
  suf_le : ∀ s, cfg.sufLen s ≤ s.length
  inf_ok : ∀ s, MatchesOK 0 s.length (cfg.infMatches s)
  spec_sum : ∀ s entry, cfg.specials s = some entry →
    ((entry.map List.length).sum : Nat) = s.length

/-- Exactly one of the three step-2/3 outcome groups of the cascade is
non-empty: the special-case tokens, the remaining core substring, or the
infix tokens. -/
def exactlyOneNonempty (specs : List TokenMeta) (mid : List Char)
    (infs : List TokenMeta) : Prop :=
  (specs ≠ [] ∧ mid = [] ∧ infs = []) ∨
  (specs = [] ∧ mid ≠ [] ∧ infs = []) ∨
  (specs = [] ∧ mid = [] ∧ infs ≠ [])

instance (specs : List TokenMeta) (mid : List Char) (infs : List TokenMeta) :
    Decidable (exactlyOneNonempty specs mid infs) := by
  unfold exactlyOneNonempty; infer_instance

/-- At most one of the three outcome groups is non-empty. -/
def atMostOneNonempty (specs : List TokenMeta) (mid : List Char)
    (infs : List TokenMeta) : Prop :=
  (specs ≠ [] → mid = [] ∧ infs = []) ∧
  (mid ≠ [] → specs = [] ∧ infs = []) ∧
  (infs ≠ [] → specs = [] ∧ mid = [])

/-! ## Concrete matcher configurations used as test inputs -/

/-- The trivial matcher configuration: searchers that never match and an
empty exception table. -/
def cfgTriv : TokenizerCfg := ⟨fun _ => 0, fun _ => 0, fun _ => [], fun _ => none⟩

/-- A configuration whose exception table maps the two-character key
`"ab"` to a single sub-token with declared text `"abc"`: the declared
sub-token lengths sum to 3, not 2. -/
def cfgExc : TokenizerCfg :=
  ⟨fun _ => 0, fun _ => 0, fun _ => [],
   fun s => if s = ['a', 'b'] then some [['a', 'b', 'c']] else none⟩

/-- A configuration whose infix matcher reports exactly one zero-length
match, at position 0, on the input `"ab"`. -/
def cfgZinf : TokenizerCfg :=
  ⟨fun _ => 0, fun _ => 0, fun s => if s = ['a', 'b'] then [(0, 0)] else [],
   fun _ => none⟩

/-- A configuration whose prefix matcher consumes the whole one-character
run `"("`. -/
def cfgPar : TokenizerCfg :=
  ⟨fun s => if s = ['('] then 1 else 0, fun _ => 0, fun _ => [], fun _ => none⟩

/-- An infix matcher reporting a zero-length match at scan offset 0
followed by a genuine match on `"ab"`. -/
def infZmix : List Char → List (Nat × Nat) :=
  fun s => if s = ['a', 'b'] then [(0, 0), (1, 2)] else []

end Tok

namespace Tok

/-! ## Basic lemmas about the tiling predicates -/

/-- Default token used with `getLastD`. -/
def dTok : TokenMeta := ⟨0, none, false, false⟩

theorem tilesTo_nil {a b : Int} (h : TilesTo [] a b) : a = b := h

theorem tilesTo_append {A B : List TokenMeta} {a c b : Int}
    (h1 : TilesTo A a c) (h2 : TilesTo B c b) : TilesTo (A ++ B) a b := by
  induction A generalizing a with
  | nil => have : a = c := h1; subst this; exact h2
  | cons t A ih =>
    obtain ⟨hs, e, he, hle, hrest⟩ := h1
    exact ⟨hs, e, he, hle, ih hrest⟩

theorem tilesTo_mono {L : List TokenMeta} {a b : Int}
    (h : TilesTo L a b) : a ≤ b := by
  induction L generalizing a with
  | nil => exact le_of_eq h
  | cons t L ih =>
    obtain ⟨_, e, _, hle, hrest⟩ := h
    exact le_trans hle (ih hrest)

theorem chainTo_nil {a b : Int} (h : ChainTo [] a b) : a = b := h

theorem chainTo_append {A B : List TokenMeta} {a c b : Int}
    (h1 : ChainTo A a c) (h2 : ChainTo B c b) : ChainTo (A ++ B) a b := by
  induction A generalizing a with
  | nil => have : a = c := h1; subst this; exact h2
  | cons t A ih =>
    obtain ⟨hs, e, he, hle, hrest⟩ := h1
    exact ⟨hs, e, he, hle, ih hrest⟩

theorem chainTo_mono {L : List TokenMeta} {a b : Int}
    (h : ChainTo L a b) : a ≤ b := by
  induction L generalizing a with
  | nil => exact le_of_eq h
  | cons t L ih =>
    obtain ⟨_, e, _, hle, hrest⟩ := h
    have := ih hrest
    by_cases hsa : t.space_after <;> simp [hsa] at this <;> omega

/-- A tiling in which all tokens but the last have a clear `space_after`
flag is a gap-aware chain, whose endpoint moves one further when the
last token's flag is set. -/
theorem chainTo_of_tilesTo {L : List TokenMeta} {a b : Int}
    (h : TilesTo L a b) (hmid : ∀ t ∈ L.dropLast, t.space_after = false)
    (hne : L ≠ []) :
    ChainTo L a (b + (if (L.getLastD dTok).space_after then 1 else 0)) := by
  induction L generalizing a with
  | nil => exact absurd rfl hne
  | cons t L ih =>
    obtain ⟨hs, e, he, hle, hrest⟩ := h
    cases L with
    | nil =>
      have : e + 1 = b := hrest
      refine ⟨hs, e, he, hle, ?_⟩
      show e + 1 + _ = _
      simp [List.getLastD]
      omega
    | cons u M =>
      have hmid' : ∀ x ∈ (u :: M).dropLast, x.space_after = false := by
        intro x hx
        exact hmid x (by simpa using Or.inr hx)
      have hta : t.space_after = false := by
        apply hmid
        simp
      refine ⟨hs, e, he, hle, ?_⟩
      have := ih hrest hmid' (by simp)
      simpa [hta, List.getLastD] using this

theorem chainEnd_ne_nil {n : Nat} {L : List TokenMeta} {a : Int}
    (h : ChainEnd n L a) : L ≠ [] := by
  cases L with
  | nil => exact absurd h (by simp [ChainEnd])
  | cons t L => simp

theorem chainEnd_cons {n : Nat} {t : TokenMeta} {L : List TokenMeta} {a : Int}
    (hL : L ≠ []) :
    ChainEnd n (t :: L) a ↔
      t.start_pos = a ∧ ∃ e, t.end_pos = some e ∧ a ≤ e + 1 ∧
        ChainEnd n L (e + 1 + (if t.space_after then 1 else 0)) := by
  cases L with
  | nil => exact absurd rfl hL
  | cons u M => rfl

theorem chainEnd_append {n : Nat} {A B : List TokenMeta} {a c : Int}
    (h1 : ChainTo A a c) (h2 : ChainEnd n B c) : ChainEnd n (A ++ B) a := by
  induction A generalizing a with
  | nil => have : a = c := h1; subst this; exact h2
  | cons t A ih =>
    obtain ⟨hs, e, he, hle, hrest⟩ := h1
    have hne : A ++ B ≠ [] := by
      have := chainEnd_ne_nil h2
      simp [this]
    rw [List.cons_append, chainEnd_cons hne]
    exact ⟨hs, e, he, hle, ih hrest⟩

/-- A tiling of `[a, b)` of non-whitespace tokens, all of whose tokens
but the last have a clear `space_after` flag, accounts for the document
end whenever `b` plus the last token's skip reaches the length. -/
theorem chainEnd_of_tilesTo {n : Nat} {L : List TokenMeta} {a b : Int}
    (h : TilesTo L a b) (hmid : ∀ t ∈ L.dropLast, t.space_after = false)
    (hws : ∀ t ∈ L, t.is_space = false) (hne : L ≠ [])
    (hn : b + (if (L.getLastD dTok).space_after then 1 else 0) = (n : Int)) :
    ChainEnd n L a := by
  induction L generalizing a with
  | nil => exact absurd rfl hne
  | cons t L ih =>
    obtain ⟨hs, e, he, hle, hrest⟩ := h
    cases L with
    | nil =>
      have hb : e + 1 = b := hrest
      have htws : t.is_space = false := hws t (by simp)
      refine ⟨hs, ?_⟩
      simp only [effEnd, he, htws]
      simp only [List.getLastD] at hn
      by_cases hsa : t.space_after <;> simp [hsa] at hn ⊢ <;> omega
    | cons u M =>
      have hta : t.space_after = false := by
        apply hmid
        simp
      have hne2 : u :: M ≠ [] := by simp
      rw [chainEnd_cons hne2]
      refine ⟨hs, e, he, hle, ?_⟩
      rw [hta]
      simp only [Bool.false_eq_true, if_false, add_zero]
      refine ih hrest ?_ ?_ hne2 ?_
      · intro x hx
        exact hmid x (by simpa using Or.inr hx)
      · intro x hx
        exact hws x (by simp [hx])
      · simpa [hta, List.getLastD] using hn

end Tok

namespace Tok

/-! ## Lemmas about `setLastSpace` -/

theorem setLastSpace_cons {sa : Bool} {t : TokenMeta} {L : List TokenMeta}
    (h : L ≠ []) : setLastSpace sa (t :: L) = t :: setLastSpace sa L := by
  cases L with
  | nil => exact absurd rfl h
  | cons u M => rfl

theorem setLastSpace_append {sa : Bool} {A B : List TokenMeta} (h : B ≠ []) :
    setLastSpace sa (A ++ B) = A ++ setLastSpace sa B := by
  induction A with
  | nil => rfl
  | cons t A ih =>
    have hne : A ++ B ≠ [] := by simp [h]
    rw [List.cons_append, setLastSpace_cons hne, ih, List.cons_append]

theorem setLastSpace_ne_nil {sa : Bool} {L : List TokenMeta} (h : L ≠ []) :
    setLastSpace sa L ≠ [] := by
  cases L with
  | nil => exact absurd rfl h
  | cons t M =>
    cases M with
    | nil => simp [setLastSpace]
    | cons u M => rw [setLastSpace_cons (by simp)]; simp

theorem setLastSpace_tilesTo {sa : Bool} {L : List TokenMeta} {a b : Int}
    (h : TilesTo L a b) : TilesTo (setLastSpace sa L) a b := by
  induction L generalizing a with
  | nil => exact h
  | cons t L ih =>
    obtain ⟨hs, e, he, hle, hrest⟩ := h
    cases L with
    | nil =>
      exact ⟨hs, e, he, hle, hrest⟩
    | cons u M =>
      rw [setLastSpace_cons (by simp)]
      exact ⟨hs, e, he, hle, ih hrest⟩

theorem setLastSpace_dropLast {sa : Bool} {L : List TokenMeta} :
    (setLastSpace sa L).dropLast = L.dropLast := by
  induction L with
  | nil => rfl
  | cons t L ih =>
    cases L with
    | nil => rfl
    | cons u M =>
      rw [setLastSpace_cons (by simp)]
      have h1 : (t :: setLastSpace sa (u :: M)).dropLast
          = t :: (setLastSpace sa (u :: M)).dropLast := by
        apply List.dropLast_cons_of_ne_nil
        exact setLastSpace_ne_nil (by simp)
      rw [h1, ih]
      rfl

theorem setLastSpace_getLastD {sa : Bool} {L : List TokenMeta} {d : TokenMeta}
    (h : L ≠ []) :
    (setLastSpace sa L).getLastD d = { L.getLastD d with space_after := sa } := by
  induction L generalizing d with
  | nil => exact absurd rfl h
  | cons t L ih =>
    cases L with
    | nil => simp [setLastSpace, List.getLastD_cons]
    | cons u M =>
      rw [setLastSpace_cons (by simp)]
      rw [List.getLastD_cons, List.getLastD_cons]
      exact ih (by simp)

theorem setLastSpace_is_space {sa : Bool} {L : List TokenMeta}
    (h : ∀ t ∈ L, t.is_space = false) :
    ∀ t ∈ setLastSpace sa L, t.is_space = false := by
  induction L with
  | nil => intro t ht; simp [setLastSpace] at ht
  | cons t L ih =>
    cases L with
    | nil =>
      intro x hx
      simp [setLastSpace] at hx
      subst hx
      exact h t (by simp)
    | cons u M =>
      rw [setLastSpace_cons (by simp)]
      intro x hx
      rcases List.mem_cons.mp hx with h1 | h2
      · subst h1; exact h x (by simp)
      · exact ih (fun y hy => h y (by simp [hy])) x h2

/-! ## Lemmas about document slices and reconstruction -/

theorem slice_glue_nat (text : List Char) {a c b : Nat}
    (h1 : a ≤ c) (h2 : c ≤ b) :
    (text.take c).drop a ++ (text.take b).drop c = (text.take b).drop a := by
  by_cases hc : c ≤ text.length
  · have htt : (text.take b).take c = text.take c := by
      rw [List.take_take, Nat.min_eq_left h2]
    conv_rhs => rw [← List.take_append_drop c (text.take b)]
    rw [List.drop_append_eq_append_drop, htt]
    have hlen : (text.take c).length = c := by
      rw [List.length_take, Nat.min_eq_left hc]
    rw [hlen, Nat.sub_eq_zero_of_le h1, List.drop_zero]
  · push_neg at hc
    have hb : text.length ≤ b := le_trans (le_of_lt hc) h2
    have h3 : text.take c = text := List.take_of_length_le (le_of_lt hc)
    have h4 : text.take b = text := List.take_of_length_le hb
    rw [h3, h4]
    have h5 : text.drop c = [] := List.drop_eq_nil_of_le (le_of_lt hc)
    rw [h5, List.append_nil]

theorem sliceI_glue (text : List Char) {a c b : Int}
    (h0 : 0 ≤ a) (h1 : a ≤ c) (h2 : c ≤ b) :
    sliceI text a c ++ sliceI text c b = sliceI text a b := by
  unfold sliceI
  exact slice_glue_nat text (by omega) (by omega)

theorem sliceI_self (text : List Char) (a : Int) : sliceI text a a = [] := by
  unfold sliceI
  apply List.drop_eq_nil_of_le
  rw [List.length_take]
  omega

theorem reconAll_append (text : List Char) (A B : List TokenMeta) :
    reconAll text (A ++ B) = reconAll text A ++ reconAll text B := by
  unfold reconAll
  exact List.flatMap_append A B _

theorem plainConcat_append (text : List Char) (A B : List TokenMeta) :
    plainConcat text (A ++ B) = plainConcat text A ++ plainConcat text B := by
  unfold plainConcat
  exact List.flatMap_append A B _

/-- Gap-aware reconstruction of a chained span list is exactly the
document slice between its endpoints. -/
theorem reconAll_of_chainTo {text : List Char} {L : List TokenMeta} {a b : Int}
    (h : ChainTo L a b) (h0 : 0 ≤ a)
    (hws : ∀ t ∈ L, t.is_space = true → t.space_after = false) :
    reconAll text L = sliceI text a b := by
  induction L generalizing a with
  | nil =>
    have : a = b := h
    subst this
    rw [sliceI_self]
    rfl
  | cons t L ih =>
    obtain ⟨hs, e, he, hle, hrest⟩ := h
    have hmono := chainTo_mono hrest
    have hrec : reconAll text (t :: L) = reconTok text t ++ reconAll text L := by
      rfl
    rw [hrec]
    by_cases hsa : t.space_after
    · have hnw : t.is_space = false := by
        by_contra hcon
        have hT : t.is_space = true := by simpa using hcon
        have := hws t (by simp) hT
        simp [this] at hsa
      have hcond : (t.space_after && !t.is_space) = true := by
        simp [hsa, hnw]
      have htok : reconTok text t = sliceI text a (e + 1) ++ sliceI text (e + 1) (e + 2) := by
        unfold reconTok sliceTok
        rw [he]
        simp only [hcond, if_true, hs]
      rw [htok, ih hrest (by omega) (fun x hx => hws x (by simp [hx]))]
      have hb : e + 1 + 1 = e + 2 := by omega
      simp only [hsa, if_true] at hmono ⊢
      rw [hb] at hmono ⊢
      rw [List.append_assoc]
      rw [sliceI_glue text (by omega) (by omega) hmono]
      exact sliceI_glue text h0 hle (by omega)
    · have hsa' : t.space_after = false := by simpa using hsa
      rw [hsa'] at hrest hmono
      simp only [Bool.false_eq_true, if_false, add_zero] at hrest hmono
      have hcond : (t.space_after && !t.is_space) = false := by simp [hsa']
      have htok : reconTok text t = sliceI text a (e + 1) := by
        unfold reconTok sliceTok
        rw [he]
        simp only [hcond, Bool.false_eq_true, if_false, hs, List.append_nil]
      rw [htok, ih hrest (by omega) (fun x hx => hws x (by simp [hx]))]
      exact sliceI_glue text h0 hle hmono

end Tok

namespace Tok

/-! ## Specifications of the cascade helpers -/

/-- The special-case tokens consume exactly the declared `ORTH` lengths,
tiling from `pos`, with no validation against the key. -/
theorem specialTokenMeta_tilesTo (orths : List (List Char)) (pos : Int) :
    TilesTo (specialTokenMeta orths pos) pos
      (pos + ((orths.map List.length).sum : Int)) := by
  induction orths generalizing pos with
  | nil =>
    show pos = pos + _
    simp
  | cons orth rest ih =>
    refine ⟨rfl, pos + (orth.length : Int) - 1, rfl, by omega, ?_⟩
    have := ih (pos + (orth.length : Int) - 1 + 1)
    have harith : pos + (orth.length : Int) - 1 + 1 + ((rest.map List.length).sum : Int)
        = pos + (((orth :: rest).map List.length).sum : Int) := by
      simp only [List.map_cons, List.sum_cons]
      push_cast
      omega
    rw [harith] at this
    exact this

theorem specialTokenMeta_flags (orths : List (List Char)) (pos : Int) :
    ∀ t ∈ specialTokenMeta orths pos,
      t.is_space = false ∧ t.space_after = false := by
  induction orths generalizing pos with
  | nil => intro t ht; simp [specialTokenMeta] at ht
  | cons orth rest ih =>
    intro t ht
    rcases List.mem_cons.mp ht with h1 | h2
    · subst h1; exact ⟨rfl, rfl⟩
    · exact ih _ t h2

theorem specialTokenMeta_length (orths : List (List Char)) (pos : Int) :
    (specialTokenMeta orths pos).length = orths.length := by
  induction orths generalizing pos with
  | nil => rfl
  | cons orth rest ih => simpa [specialTokenMeta] using ih _

/-- Invariant of the infix match loop: over a well-formed, non-empty
match list, the emitted tokens tile from `pos`, the final `end_pos` is
one below the final `pos`, and `pos` has advanced exactly as far as the
scan offset. -/
theorem infLoop_spec {s : List Char} :
    ∀ (ms : List (Nat × Nat)) (pos : Int) (off : Nat) (e : Int),
      MatchesOK off s.length ms → ms ≠ [] →
      ∃ ts pos' off' e',
        infLoop s ms pos off e = (ts, pos', off', e') ∧ ts ≠ [] ∧
        TilesTo ts pos pos' ∧ e' = pos' - 1 ∧
        off ≤ off' ∧ off' ≤ s.length ∧
        pos' = pos + (off' : Int) - (off : Int) ∧
        (∀ t ∈ ts, t.is_space = false ∧ t.space_after = false) := by
  intro ms
  induction ms with
  | nil => intro pos off e hok hne; exact absurd rfl hne
  | cons m rest ih =>
    obtain ⟨st, en⟩ := m
    intro pos off e hok hne
    obtain ⟨h1, h2, h3, hrest⟩ := hok
    have hgl : ((s.take st).drop off).length = st - off := by
      rw [List.length_drop, List.length_take]
      omega
    have hsl : ((s.take en).drop st).length = en - st := by
      rw [List.length_drop, List.length_take]
      omega
    have hslne : en - st ≠ 0 := by omega
    by_cases hoff : st - off = 0
    · -- no gap token, only the matched-region token
      have hts : infLoop s ((st, en) :: rest) pos off e =
          (match infLoop s rest (pos + ((en : Int) - st)) en (pos + ((en : Int) - st) - 1) with
           | (ts3, pos3, off3, e3) =>
             ([⟨pos, some (pos + ((en : Int) - st) - 1), false, false⟩] ++ ts3, pos3, off3, e3)) := by
        simp only [infLoop, hgl, hsl, hoff, hslne, ne_eq, not_true_eq_false,
          not_false_eq_true, if_false, if_true, ite_true, ite_false]
        have hc : ((en - st : Nat) : Int) = (en : Int) - st := by omega
        rw [hc]
        have harith : pos + ((en : Int) - st) - 1 + 1 = pos + ((en : Int) - st) := by omega
        rw [harith]
        simp
      cases rest with
      | nil =>
        refine ⟨[⟨pos, some (pos + ((en : Int) - st) - 1), false, false⟩],
          pos + ((en : Int) - st), en, pos + ((en : Int) - st) - 1, ?_, by simp, ?_, by omega,
          by omega, by omega, by omega, ?_⟩
        · rw [hts]
          simp [infLoop]
        · exact ⟨rfl, _, rfl, by omega, by show _ = _; omega⟩
        · intro t ht
          simp at ht
          subst ht
          exact ⟨rfl, rfl⟩
      | cons m2 rest2 =>
        obtain ⟨ts3, pos3, off3, e3, heq, hne3, htile3, he3, hoff3, hoffle3, hpos3, hflags3⟩ :=
          ih (pos + ((en : Int) - st)) en (pos + ((en : Int) - st) - 1) hrest (by simp)
        refine ⟨⟨pos, some (pos + ((en : Int) - st) - 1), false, false⟩ :: ts3,
          pos3, off3, e3, ?_, by simp, ?_, he3, by omega, hoffle3, by omega, ?_⟩
        · rw [hts, heq]
          simp
        · refine ⟨rfl, pos + ((en : Int) - st) - 1, rfl, by omega, ?_⟩
          have harith : pos + ((en : Int) - st) - 1 + 1 = pos + ((en : Int) - st) := by omega
          rw [harith]
          exact htile3
        · intro t ht
          rcases List.mem_cons.mp ht with hh | hh
          · subst hh; exact ⟨rfl, rfl⟩
          · exact hflags3 t hh
    · -- a gap token is emitted before the matched-region token
      have hgne : st - off ≠ 0 := hoff
      have hts : infLoop s ((st, en) :: rest) pos off e =
          (match infLoop s rest (pos + ((en : Int) - off)) en (pos + ((en : Int) - off) - 1) with
           | (ts3, pos3, off3, e3) =>
             ([⟨pos, some (pos + ((st : Int) - off) - 1), false, false⟩,
               ⟨pos + ((st : Int) - off), some (pos + ((en : Int) - off) - 1), false, false⟩] ++ ts3,
              pos3, off3, e3)) := by
        simp only [infLoop, hgl, hsl, hgne, hslne, ne_eq, not_false_eq_true, if_true,
          ite_true, ite_false]
        have hc1 : ((st - off : Nat) : Int) = (st : Int) - off := by omega
        have hc2 : ((en - st : Nat) : Int) = (en : Int) - st := by omega
        rw [hc1, hc2]
        have ha1 : pos + ((st : Int) - off) - 1 + 1 = pos + ((st : Int) - off) := by omega
        have ha2 : pos + ((st : Int) - off) + ((en : Int) - st) - 1 + 1 = pos + ((en : Int) - off) := by omega
        have ha3 : pos + ((st : Int) - off) + ((en : Int) - st) - 1 = pos + ((en : Int) - off) - 1 := by omega
        rw [ha1, ha2, ha3]
        simp
      cases rest with
      | nil =>
        refine ⟨[⟨pos, some (pos + ((st : Int) - off) - 1), false, false⟩,
            ⟨pos + ((st : Int) - off), some (pos + ((en : Int) - off) - 1), false, false⟩],
          pos + ((en : Int) - off), en, pos + ((en : Int) - off) - 1, ?_, by simp, ?_, by omega,
          by omega, by omega, by omega, ?_⟩
        · rw [hts]
          simp [infLoop]
        · refine ⟨rfl, pos + ((st : Int) - off) - 1, rfl, by omega, ?_⟩
          have ha1 : pos + ((st : Int) - off) - 1 + 1 = pos + ((st : Int) - off) := by omega
          rw [ha1]
          refine ⟨rfl, pos + ((en : Int) - off) - 1, rfl, by omega, ?_⟩
          show _ = _
          omega
        · intro t ht
          simp at ht
          rcases ht with hh | hh <;> subst hh <;> exact ⟨rfl, rfl⟩
      | cons m2 rest2 =>
        obtain ⟨ts3, pos3, off3, e3, heq, hne3, htile3, he3, hoff3, hoffle3, hpos3, hflags3⟩ :=
          ih (pos + ((en : Int) - off)) en (pos + ((en : Int) - off) - 1) hrest (by simp)
        refine ⟨⟨pos, some (pos + ((st : Int) - off) - 1), false, false⟩ ::
            ⟨pos + ((st : Int) - off), some (pos + ((en : Int) - off) - 1), false, false⟩ :: ts3,
          pos3, off3, e3, ?_, by simp, ?_, he3, by omega, hoffle3, by omega, ?_⟩
        · rw [hts, heq]
          simp
        · refine ⟨rfl, pos + ((st : Int) - off) - 1, rfl, by omega, ?_⟩
          have ha1 : pos + ((st : Int) - off) - 1 + 1 = pos + ((st : Int) - off) := by omega
          rw [ha1]
          refine ⟨rfl, pos + ((en : Int) - off) - 1, rfl, by omega, ?_⟩
          have ha2 : pos + ((en : Int) - off) - 1 + 1 = pos + ((en : Int) - off) := by omega
          rw [ha2]
          exact htile3
        · intro t ht
          rcases List.mem_cons.mp ht with hh | hh
          · subst hh; exact ⟨rfl, rfl⟩
          rcases List.mem_cons.mp hh with hh2 | hh2
          · subst hh2; exact ⟨rfl, rfl⟩
          · exact hflags3 t hh2

end Tok

namespace Tok

theorem tilesTo_snoc {L : List TokenMeta} {a c : Int} (h : TilesTo L a c)
    {t : TokenMeta} {e : Int} (hs : t.start_pos = c) (he : t.end_pos = some e)
    (hle : c ≤ e + 1) : TilesTo (L ++ [t]) a (e + 1) :=
  tilesTo_append h ⟨hs, e, he, hle, rfl⟩

/-- The infix splitter, on a well-formed non-empty match list, emits a
non-empty token list exactly tiling the substring from `pos`. -/
theorem infTokenMeta_spec {s : List Char} {pos : Int} {ms : List (Nat × Nat)}
    (hok : MatchesOK 0 s.length ms) (hne : ms ≠ []) :
    infTokenMeta s pos ms ≠ [] ∧
    TilesTo (infTokenMeta s pos ms) pos (pos + (s.length : Int)) ∧
    (∀ t ∈ infTokenMeta s pos ms, t.is_space = false ∧ t.space_after = false) := by
  obtain ⟨ts, pos', off', e', heq, htsne, htile, he, _, hoffle, hpos, hflags⟩ :=
    infLoop_spec ms pos 0 0 hok hne
  have hleft : (s.drop off').length = s.length - off' := by
    rw [List.length_drop]
  by_cases hoffl : off' = s.length
  · have hleft0 : (s.drop off').length = 0 := by omega
    have hres : infTokenMeta s pos ms = ts := by
      unfold infTokenMeta
      rw [heq]
      simp [hleft0]
    rw [hres]
    refine ⟨htsne, ?_, hflags⟩
    have : pos' = pos + (s.length : Int) := by omega
    rw [← this]
    exact htile
  · have hleftne : (s.drop off').length ≠ 0 := by omega
    have hres : infTokenMeta s pos ms =
        ts ++ [⟨e' + 1, some (e' + 1 + ((s.length : Int) - (off' : Int)) - 1),
          false, false⟩] := by
      unfold infTokenMeta
      rw [heq]
      simp only [ne_eq, hleftne, not_false_eq_true, ite_true, if_true]
      rw [hleft]
      have hc : ((s.length - off' : Nat) : Int) = (s.length : Int) - (off' : Int) := by
        omega
      rw [hc]
    rw [hres]
    refine ⟨by simp, ?_, ?_⟩
    · have hfin : e' + 1 + ((s.length : Int) - (off' : Int)) - 1 + 1
          = pos + (s.length : Int) := by omega
      have hstart : (⟨e' + 1, some (e' + 1 + ((s.length : Int) - (off' : Int)) - 1),
          false, false⟩ : TokenMeta).start_pos = pos' := by
        show e' + 1 = pos'
        omega
      have := tilesTo_snoc htile hstart rfl (by show pos' ≤ _; omega)
      rw [hfin] at this
      exact this
    · intro t ht
      rcases List.mem_append.mp ht with hh | hh
      · exact hflags t hh
      · simp at hh
        subst hh
        exact ⟨rfl, rfl⟩

/-- Invariant of the affix-stripping loop: with length-bounded matchers
and enough fuel, the loop terminates; the accumulated prefix tokens tile
`[a, pos1)`, the reversed suffix tokens tile `[pos1 + len(s1), b)`, and
the substring only shrinks. -/
/- First, exact one-step reduction equations for the loop. -/

theorem affixLoop_exit {cfg : TokenizerCfg} {fuel : Nat} {s : List Char}
    {pos : Int} {pres sufs : List TokenMeta}
    (h : cfg.preLen s = 0 ∧ cfg.sufLen s = 0) :
    affixLoop cfg (fuel + 1) s pos pres sufs = some (s, pos, pres, sufs) := by
  simp only [affixLoop]
  rw [if_pos h]

theorem affixLoop_special {cfg : TokenizerCfg} {fuel : Nat} {s : List Char}
    {pos : Int} {pres sufs : List TokenMeta}
    (h : (cfg.specials s).isSome = true) :
    affixLoop cfg (fuel + 1) s pos pres sufs = some (s, pos, pres, sufs) := by
  by_cases hend : cfg.preLen s = 0 ∧ cfg.sufLen s = 0
  · exact affixLoop_exit hend
  · simp only [affixLoop]
    rw [if_neg hend, if_pos h]

theorem affixLoop_step_suf {cfg : TokenizerCfg} {fuel : Nat} {s : List Char}
    {pos : Int} {pres sufs : List TokenMeta}
    (hend : ¬(cfg.preLen s = 0 ∧ cfg.sufLen s = 0))
    (hspec : ¬((cfg.specials s).isSome = true))
    (hpre : cfg.preLen s = 0) :
    affixLoop cfg (fuel + 1) s pos pres sufs =
      affixLoop cfg fuel (s.take (s.length - cfg.sufLen s)) pos pres
        (sufs ++ [⟨pos + (s.length : Int) - (cfg.sufLen s : Int),
          some (pos + (s.length : Int) - (cfg.sufLen s : Int) + (cfg.sufLen s : Int) - 1),
          false, false⟩]) := by
  have hsufne : cfg.sufLen s ≠ 0 := fun hc => hend ⟨hpre, hc⟩
  simp only [affixLoop, sufTokenMeta]
  rw [if_neg hend, if_neg hspec]
  simp only [hpre, ne_eq, not_true_eq_false, if_false, ite_false, false_and]
  simp [hsufne]

theorem affixLoop_step_pre_break {cfg : TokenizerCfg} {fuel : Nat} {s : List Char}
    {pos : Int} {pres sufs : List TokenMeta}
    (hend : ¬(cfg.preLen s = 0 ∧ cfg.sufLen s = 0))
    (hspec : ¬((cfg.specials s).isSome = true))
    (hpre : cfg.preLen s ≠ 0)
    (hspec2 : (cfg.specials (s.drop (cfg.preLen s))).isSome = true) :
    affixLoop cfg (fuel + 1) s pos pres sufs =
      some (s.drop (cfg.preLen s), pos + (cfg.preLen s : Int) - 1 + 1,
        pres ++ [⟨pos, some (pos + (cfg.preLen s : Int) - 1), false, false⟩], sufs) := by
  simp only [affixLoop, preTokenMeta]
  rw [if_neg hend, if_neg hspec]
  simp only [hpre, ne_eq, not_false_eq_true, if_true, ite_true, if_false, ite_false]
  simp [hspec2, hpre]

theorem affixLoop_step_pre_nosuf {cfg : TokenizerCfg} {fuel : Nat} {s : List Char}
    {pos : Int} {pres sufs : List TokenMeta}
    (hend : ¬(cfg.preLen s = 0 ∧ cfg.sufLen s = 0))
    (hspec : ¬((cfg.specials s).isSome = true))
    (hpre : cfg.preLen s ≠ 0)
    (hspec2 : ¬((cfg.specials (s.drop (cfg.preLen s))).isSome = true))
    (hsuf : cfg.sufLen (s.drop (cfg.preLen s)) = 0) :
    affixLoop cfg (fuel + 1) s pos pres sufs =
      affixLoop cfg fuel (s.drop (cfg.preLen s)) (pos + (cfg.preLen s : Int) - 1 + 1)
        (pres ++ [⟨pos, some (pos + (cfg.preLen s : Int) - 1), false, false⟩]) sufs := by
  simp only [affixLoop, preTokenMeta]
  rw [if_neg hend, if_neg hspec]
  simp only [hpre, ne_eq, not_false_eq_true, if_true, ite_true, if_false, ite_false]
  simp [hspec2, hpre, hsuf]

theorem affixLoop_step_pre_suf {cfg : TokenizerCfg} {fuel : Nat} {s : List Char}
    {pos : Int} {pres sufs : List TokenMeta}
    (hend : ¬(cfg.preLen s = 0 ∧ cfg.sufLen s = 0))
    (hspec : ¬((cfg.specials s).isSome = true))
    (hpre : cfg.preLen s ≠ 0)
    (hspec2 : ¬((cfg.specials (s.drop (cfg.preLen s))).isSome = true))
    (hsuf : cfg.sufLen (s.drop (cfg.preLen s)) ≠ 0) :
    affixLoop cfg (fuel + 1) s pos pres sufs =
      affixLoop cfg fuel
        ((s.drop (cfg.preLen s)).take
          ((s.drop (cfg.preLen s)).length - cfg.sufLen (s.drop (cfg.preLen s))))
        (pos + (cfg.preLen s : Int) - 1 + 1)
        (pres ++ [⟨pos, some (pos + (cfg.preLen s : Int) - 1), false, false⟩])
        (sufs ++ [⟨pos + (cfg.preLen s : Int) - 1 + 1 +
            ((s.drop (cfg.preLen s)).length : Int) -
            (cfg.sufLen (s.drop (cfg.preLen s)) : Int),
          some (pos + (cfg.preLen s : Int) - 1 + 1 +
            ((s.drop (cfg.preLen s)).length : Int) -
            (cfg.sufLen (s.drop (cfg.preLen s)) : Int) +
            (cfg.sufLen (s.drop (cfg.preLen s)) : Int) - 1),
          false, false⟩]) := by
  simp only [affixLoop, preTokenMeta, sufTokenMeta]
  rw [if_neg hend, if_neg hspec]
  simp only [hpre, ne_eq, not_false_eq_true, if_true, ite_true, if_false, ite_false]
  simp [hspec2, hpre, hsuf]

/-- Invariant of the affix-stripping loop: with length-bounded matchers
and enough fuel, the loop terminates; the accumulated prefix tokens tile
`[a, pos1)`, the reversed suffix tokens tile `[pos1 + len(s1), b)`, and
the substring only shrinks. -/
theorem affixLoop_spec {cfg : TokenizerCfg}
    (hp : ∀ u, cfg.preLen u ≤ u.length) (hq : ∀ u, cfg.sufLen u ≤ u.length) :
    ∀ (fuel : Nat) (s : List Char) (pos : Int) (pres sufs : List TokenMeta)
      (a b : Int),
      s.length < fuel →
      TilesTo pres a pos →
      TilesTo sufs.reverse (pos + (s.length : Int)) b →
      (∀ t ∈ pres, t.is_space = false ∧ t.space_after = false) →
      (∀ t ∈ sufs, t.is_space = false ∧ t.space_after = false) →
      ∃ s1 pos1 pres1 sufs1,
        affixLoop cfg fuel s pos pres sufs = some (s1, pos1, pres1, sufs1) ∧
        TilesTo pres1 a pos1 ∧
        TilesTo sufs1.reverse (pos1 + (s1.length : Int)) b ∧
        (∀ t ∈ pres1, t.is_space = false ∧ t.space_after = false) ∧
        (∀ t ∈ sufs1, t.is_space = false ∧ t.space_after = false) ∧
        s1.length ≤ s.length := by
  intro fuel
  induction fuel with
  | zero => intro s pos pres sufs a b hfuel; omega
  | succ fuel ih =>
    intro s pos pres sufs a b hfuel hpres hsufs hfp hfs
    by_cases hend : cfg.preLen s = 0 ∧ cfg.sufLen s = 0
    · exact ⟨s, pos, pres, sufs, affixLoop_exit hend, hpres, hsufs, hfp, hfs, le_refl _⟩
    · by_cases hspec : (cfg.specials s).isSome
      · exact ⟨s, pos, pres, sufs, affixLoop_special hspec, hpres, hsufs, hfp, hfs,
          le_refl _⟩
      · by_cases hpre : cfg.preLen s = 0
        · -- no prefix this round; a suffix must match and is stripped
          have hsufne : cfg.sufLen s ≠ 0 := fun hc => hend ⟨hpre, hc⟩
          have hk := hq s
          have hk1 : 1 ≤ cfg.sufLen s := Nat.one_le_iff_ne_zero.mpr hsufne
          have hslen : (s.take (s.length - cfg.sufLen s)).length
              = s.length - cfg.sufLen s := by
            rw [List.length_take]
            omega
          rw [affixLoop_step_suf hend hspec hpre]
          have hnewsufs : TilesTo (sufs ++ [(⟨pos + (s.length : Int) - (cfg.sufLen s : Int),
              some (pos + (s.length : Int) - (cfg.sufLen s : Int) + (cfg.sufLen s : Int) - 1),
              false, false⟩ : TokenMeta)]).reverse
              (pos + ((s.take (s.length - cfg.sufLen s)).length : Int)) b := by
            rw [List.reverse_append]
            simp only [List.reverse_singleton, List.singleton_append]
            refine ⟨?_, pos + (s.length : Int) - (cfg.sufLen s : Int) + (cfg.sufLen s : Int) - 1,
              rfl, ?_, ?_⟩
            · show pos + (s.length : Int) - (cfg.sufLen s : Int)
                = pos + ((s.take (s.length - cfg.sufLen s)).length : Int)
              rw [hslen]
              omega
            · rw [hslen]
              omega
            · have hc : pos + (s.length : Int) - (cfg.sufLen s : Int) + (cfg.sufLen s : Int)
                  - 1 + 1 = pos + (s.length : Int) := by omega
              rw [hc]
              exact hsufs
          have hfs1 : ∀ t ∈ sufs ++ [(⟨pos + (s.length : Int) - (cfg.sufLen s : Int),
              some (pos + (s.length : Int) - (cfg.sufLen s : Int) + (cfg.sufLen s : Int) - 1),
              false, false⟩ : TokenMeta)], t.is_space = false ∧ t.space_after = false := by
            intro t ht
            rcases List.mem_append.mp ht with hh | hh
            · exact hfs t hh
            · simp at hh
              subst hh
              exact ⟨rfl, rfl⟩
          obtain ⟨s1, pos1, pres1, sufs1, h1, h2, h3, h4, h5, h6⟩ :=
            ih (s.take (s.length - cfg.sufLen s)) pos pres _ a b (by omega) hpres
              hnewsufs hfp hfs1
          refine ⟨s1, pos1, pres1, sufs1, h1, h2, h3, h4, h5, ?_⟩
          rw [hslen] at h6
          omega
        · -- a prefix matches and is stripped first
          have hk := hp s
          have hk1 : 1 ≤ cfg.preLen s := Nat.one_le_iff_ne_zero.mpr hpre
          have hdlen : ((s.drop (cfg.preLen s)).length : Int)
              = (s.length : Int) - (cfg.preLen s : Int) := by
            rw [List.length_drop]
            omega
          have hpres1 : TilesTo (pres ++ [(⟨pos, some (pos + (cfg.preLen s : Int) - 1),
              false, false⟩ : TokenMeta)]) a (pos + (cfg.preLen s : Int) - 1 + 1) :=
            tilesTo_snoc hpres rfl rfl (by show pos ≤ _; omega)
          have hfp1 : ∀ t ∈ pres ++ [(⟨pos, some (pos + (cfg.preLen s : Int) - 1), false,
              false⟩ : TokenMeta)], t.is_space = false ∧ t.space_after = false := by
            intro t ht
            rcases List.mem_append.mp ht with hh | hh
            · exact hfp t hh
            · simp at hh
              subst hh
              exact ⟨rfl, rfl⟩
          by_cases hspec2 : (cfg.specials (s.drop (cfg.preLen s))).isSome
          · -- the stripped substring is a special-case key: break out
            rw [affixLoop_step_pre_break hend hspec hpre hspec2]
            refine ⟨s.drop (cfg.preLen s), pos + (cfg.preLen s : Int) - 1 + 1, _, sufs,
              rfl, hpres1, ?_, hfp1, hfs, ?_⟩
            · rw [hdlen]
              have hc : pos + (cfg.preLen s : Int) - 1 + 1 +
                  ((s.length : Int) - (cfg.preLen s : Int)) = pos + (s.length : Int) := by
                omega
              rw [hc]
              exact hsufs
            · rw [List.length_drop]
              omega
          · by_cases hsuf : cfg.sufLen (s.drop (cfg.preLen s)) = 0
            · -- prefix stripped, no suffix matches: loop
              rw [affixLoop_step_pre_nosuf hend hspec hpre hspec2 hsuf]
              have hsufs1 : TilesTo sufs.reverse (pos + (cfg.preLen s : Int) - 1 + 1 +
                  ((s.drop (cfg.preLen s)).length : Int)) b := by
                rw [hdlen]
                have hc : pos + (cfg.preLen s : Int) - 1 + 1 +
                    ((s.length : Int) - (cfg.preLen s : Int)) = pos + (s.length : Int) := by
                  omega
                rw [hc]
                exact hsufs
              obtain ⟨s1, pos1, pres1, sufs1, h1, h2, h3, h4, h5, h6⟩ :=
                ih (s.drop (cfg.preLen s)) (pos + (cfg.preLen s : Int) - 1 + 1) _ sufs
                  a b (by rw [List.length_drop]; omega) hpres1 hsufs1 hfp1 hfs
              refine ⟨s1, pos1, pres1, sufs1, h1, h2, h3, h4, h5, ?_⟩
              rw [List.length_drop] at h6
              omega
            · -- prefix stripped, then a suffix stripped: loop
              have hk2 := hq (s.drop (cfg.preLen s))
              have hk21 : 1 ≤ cfg.sufLen (s.drop (cfg.preLen s)) :=
                Nat.one_le_iff_ne_zero.mpr hsuf
              have hdk : (s.drop (cfg.preLen s)).length = s.length - cfg.preLen s :=
                List.length_drop ..
              rw [affixLoop_step_pre_suf hend hspec hpre hspec2 hsuf]
              have hslen2 : (((s.drop (cfg.preLen s)).take ((s.drop (cfg.preLen s)).length -
                  cfg.sufLen (s.drop (cfg.preLen s)))).length : Int)
                  = ((s.drop (cfg.preLen s)).length : Int) -
                    (cfg.sufLen (s.drop (cfg.preLen s)) : Int) := by
                rw [List.length_take]
                omega
              have hnewsufs : TilesTo (sufs ++ [(⟨pos + (cfg.preLen s : Int) - 1 + 1 +
                  ((s.drop (cfg.preLen s)).length : Int) -
                  (cfg.sufLen (s.drop (cfg.preLen s)) : Int),
                  some (pos + (cfg.preLen s : Int) - 1 + 1 +
                    ((s.drop (cfg.preLen s)).length : Int) -
                    (cfg.sufLen (s.drop (cfg.preLen s)) : Int) +
                    (cfg.sufLen (s.drop (cfg.preLen s)) : Int) - 1),
                  false, false⟩ : TokenMeta)]).reverse
                  (pos + (cfg.preLen s : Int) - 1 + 1 +
                    (((s.drop (cfg.preLen s)).take ((s.drop (cfg.preLen s)).length -
                      cfg.sufLen (s.drop (cfg.preLen s)))).length : Int)) b := by
                rw [List.reverse_append]
                simp only [List.reverse_singleton, List.singleton_append]
                refine ⟨?_, pos + (cfg.preLen s : Int) - 1 + 1 +
                    ((s.drop (cfg.preLen s)).length : Int) -
                    (cfg.sufLen (s.drop (cfg.preLen s)) : Int) +
                    (cfg.sufLen (s.drop (cfg.preLen s)) : Int) - 1, rfl, ?_, ?_⟩
                · show pos + (cfg.preLen s : Int) - 1 + 1 +
                      ((s.drop (cfg.preLen s)).length : Int) -
                      (cfg.sufLen (s.drop (cfg.preLen s)) : Int)
                    = pos + (cfg.preLen s : Int) - 1 + 1 +
                      (((s.drop (cfg.preLen s)).take ((s.drop (cfg.preLen s)).length -
                        cfg.sufLen (s.drop (cfg.preLen s)))).length : Int)
                  rw [hslen2]
                  omega
                · rw [hslen2]
                  omega
                · have hc : pos + (cfg.preLen s : Int) - 1 + 1 +
                      ((s.drop (cfg.preLen s)).length : Int) -
                      (cfg.sufLen (s.drop (cfg.preLen s)) : Int) +
                      (cfg.sufLen (s.drop (cfg.preLen s)) : Int) - 1 + 1
                      = pos + (s.length : Int) := by
                    rw [hdlen]
                    omega
                  rw [hc]
                  exact hsufs
              have hfs2 : ∀ t ∈ sufs ++ [(⟨pos + (cfg.preLen s : Int) - 1 + 1 +
                  ((s.drop (cfg.preLen s)).length : Int) -
                  (cfg.sufLen (s.drop (cfg.preLen s)) : Int),
                  some (pos + (cfg.preLen s : Int) - 1 + 1 +
                    ((s.drop (cfg.preLen s)).length : Int) -
                    (cfg.sufLen (s.drop (cfg.preLen s)) : Int) +
                    (cfg.sufLen (s.drop (cfg.preLen s)) : Int) - 1),
                  false, false⟩ : TokenMeta)],
                  t.is_space = false ∧ t.space_after = false := by
                intro t ht
                rcases List.mem_append.mp ht with hh | hh
                · exact hfs t hh
                · simp at hh
                  subst hh
                  exact ⟨rfl, rfl⟩
              obtain ⟨s1, pos1, pres1, sufs1, h1, h2, h3, h4, h5, h6⟩ :=
                ih _ (pos + (cfg.preLen s : Int) - 1 + 1) _ _ a b
                  (by rw [List.length_take, List.length_drop]; omega) hpres1
                  hnewsufs hfp1 hfs2
              refine ⟨s1, pos1, pres1, sufs1, h1, h2, h3, h4, h5, ?_⟩
              rw [List.length_take, List.length_drop] at h6
              omega

end Tok


namespace Tok

theorem tilesTo_ne_nil {L : List TokenMeta} {a b : Int}
    (h : TilesTo L a b) (hne : a ≠ b) : L ≠ [] := by
  intro hcon
  subst hcon
  exact hne (tilesTo_nil h)

/-- The cascade applied to a non-empty run: the run's tokens, in the
order `_attach_tokens` emits them, exactly tile the run, are non-empty,
and carry clear `is_space`/`space_after` flags. -/
theorem splitAffixes_spec {cfg : TokenizerCfg} (hwf : WFcfg cfg)
    {s : List Char} (hs : s ≠ []) (pos : Int) :
    ∃ s1 pos1 pres sufs infs specs,
      splitAffixes cfg s pos = some (s1, pos1, pres, sufs, infs, specs) ∧
      TilesTo (runTokens s1 pos1 pres sufs infs specs) pos (pos + (s.length : Int)) ∧
      runTokens s1 pos1 pres sufs infs specs ≠ [] ∧
      (∀ t ∈ runTokens s1 pos1 pres sufs infs specs,
        t.is_space = false ∧ t.space_after = false) := by
  have hlen0 : ¬(s.length = 0) := by simpa using hs
  have hlenpos : 1 ≤ s.length := by omega
  obtain ⟨s1, pos1, pres1, sufs1, hloop, hpres, hsufs, hfp, hfs, hle⟩ :=
    affixLoop_spec hwf.pre_le hwf.suf_le (s.length + 1) s pos [] [] pos
      (pos + (s.length : Int)) (by omega) rfl rfl
      (by intro t ht; simp at ht) (by intro t ht; simp at ht)
  have hfsr : ∀ t ∈ sufs1.reverse, t.is_space = false ∧ t.space_after = false := by
    intro t ht
    exact hfs t (List.mem_reverse.mp ht)
  have hnept : ∀ RT : List TokenMeta,
      TilesTo RT pos (pos + (s.length : Int)) → RT ≠ [] := by
    intro RT hRT
    exact tilesTo_ne_nil hRT (by omega)
  cases hsp : cfg.specials s1 with
  | some entry =>
    have hres : splitAffixes cfg s pos = some ([], pos1, pres1, sufs1, [],
        specialTokenMeta entry pos1) := by
      unfold splitAffixes
      rw [if_neg hlen0, hloop]
      simp only [hsp]
    have hsum : ((entry.map List.length).sum : Nat) = s1.length := hwf.spec_sum s1 entry hsp
    have hspecs : TilesTo (specialTokenMeta entry pos1) pos1 (pos1 + (s1.length : Int)) := by
      have := specialTokenMeta_tilesTo entry pos1
      rw [hsum] at this
      exact this
    have hrt : runTokens [] pos1 pres1 sufs1 [] (specialTokenMeta entry pos1)
        = pres1 ++ (specialTokenMeta entry pos1 ++ sufs1.reverse) := by
      simp [runTokens, coreTokens]
    have htile : TilesTo (runTokens [] pos1 pres1 sufs1 [] (specialTokenMeta entry pos1))
        pos (pos + (s.length : Int)) := by
      rw [hrt]
      exact tilesTo_append hpres (tilesTo_append hspecs hsufs)
    refine ⟨[], pos1, pres1, sufs1, [], specialTokenMeta entry pos1, hres, htile,
      hnept _ htile, ?_⟩
    rw [hrt]
    rw [List.forall_mem_append]
    refine ⟨hfp, ?_⟩
    rw [List.forall_mem_append]
    exact ⟨specialTokenMeta_flags entry pos1, hfsr⟩
  | none =>
    by_cases hinf : cfg.infMatches s1 ≠ []
    · have hres : splitAffixes cfg s pos = some ([], pos1, pres1, sufs1,
          infTokenMeta s1 pos1 (cfg.infMatches s1), []) := by
        unfold splitAffixes
        rw [if_neg hlen0, hloop]
        simp only [hsp, hinf, ne_eq, not_false_eq_true, if_true, ite_true]
      obtain ⟨hinfne, hinftile, hinfflags⟩ :=
        @infTokenMeta_spec s1 pos1 (cfg.infMatches s1) (hwf.inf_ok s1) hinf
      have hrt : runTokens [] pos1 pres1 sufs1 (infTokenMeta s1 pos1 (cfg.infMatches s1)) []
          = pres1 ++ (infTokenMeta s1 pos1 (cfg.infMatches s1) ++ sufs1.reverse) := by
        simp [runTokens, coreTokens]
      have htile : TilesTo (runTokens [] pos1 pres1 sufs1
          (infTokenMeta s1 pos1 (cfg.infMatches s1)) []) pos (pos + (s.length : Int)) := by
        rw [hrt]
        exact tilesTo_append hpres (tilesTo_append hinftile hsufs)
      refine ⟨[], pos1, pres1, sufs1, infTokenMeta s1 pos1 (cfg.infMatches s1), [],
        hres, htile, hnept _ htile, ?_⟩
      rw [hrt]
      rw [List.forall_mem_append]
      refine ⟨hfp, ?_⟩
      rw [List.forall_mem_append]
      exact ⟨hinfflags, hfsr⟩
    · have hres : splitAffixes cfg s pos = some (s1, pos1, pres1, sufs1, [], []) := by
        unfold splitAffixes
        rw [if_neg hlen0, hloop]
        simp only [hsp]
        rw [if_neg hinf]
      have hrt : runTokens s1 pos1 pres1 sufs1 [] []
          = pres1 ++ (coreTokens s1 pos1 ++ sufs1.reverse) := by
        simp [runTokens]
      have hcoretile : TilesTo (coreTokens s1 pos1) pos1 (pos1 + (s1.length : Int)) := by
        by_cases hs1 : s1.length = 0
        · have h0 : coreTokens s1 pos1 = [] := by
            unfold coreTokens
            simp [hs1]
          rw [h0]
          show pos1 = pos1 + ((s1.length : Int))
          rw [hs1]
          omega
        · unfold coreTokens
          simp only [hs1, ne_eq, not_false_eq_true, if_true, ite_true]
          refine ⟨rfl, pos1 + (s1.length : Int) - 1, rfl, by omega, ?_⟩
          show pos1 + (s1.length : Int) - 1 + 1 = pos1 + (s1.length : Int)
          omega
      have htile : TilesTo (runTokens s1 pos1 pres1 sufs1 [] []) pos
          (pos + (s.length : Int)) := by
        rw [hrt]
        exact tilesTo_append hpres (tilesTo_append hcoretile hsufs)
      refine ⟨s1, pos1, pres1, sufs1, [], [], hres, htile, hnept _ htile, ?_⟩
      rw [hrt]
      rw [List.forall_mem_append]
      refine ⟨hfp, ?_⟩
      rw [List.forall_mem_append]
      refine ⟨?_, hfsr⟩
      intro t ht
      unfold coreTokens at ht
      by_cases hs1 : s1.length = 0
      · simp [hs1] at ht
      · simp only [hs1, ne_eq, not_false_eq_true, if_true, ite_true] at ht
        simp at ht
        subst ht
        exact ⟨rfl, rfl⟩

end Tok

namespace Tok

/-- Exact value of `_attach_tokens` when the run contributes at least one
token: the document is extended by the run's tokens, with only the last
one's `space_after` overwritten by the run's boundary flag. -/
theorem attachTokens_eq {doc : List TokenMeta} {s : List Char} {pos : Int}
    {sa : Bool} {pres sufs infs specs : List TokenMeta}
    (h : runTokens s pos pres sufs infs specs ≠ []) :
    attachTokens doc s pos sa pres sufs infs specs =
      some (doc ++ setLastSpace sa (runTokens s pos pres sufs infs specs)) := by
  have hd3 : (if s.length ≠ 0 then
        (doc ++ pres ++ specs) ++
          [(⟨pos, some (pos + (s.length : Int) - 1), false, false⟩ : TokenMeta)]
      else doc ++ pres ++ specs) ++ infs ++ sufs.reverse
      = doc ++ runTokens s pos pres sufs infs specs := by
    unfold runTokens coreTokens
    by_cases hs0 : s.length ≠ 0 <;> simp [hs0, List.append_assoc]
  show (if ((if s.length ≠ 0 then
        (doc ++ pres ++ specs) ++
          [(⟨pos, some (pos + (s.length : Int) - 1), false, false⟩ : TokenMeta)]
      else doc ++ pres ++ specs) ++ infs ++ sufs.reverse).length = 0 then none
    else some (setLastSpace sa ((if s.length ≠ 0 then
        (doc ++ pres ++ specs) ++
          [(⟨pos, some (pos + (s.length : Int) - 1), false, false⟩ : TokenMeta)]
      else doc ++ pres ++ specs) ++ infs ++ sufs.reverse))) = _
  rw [hd3]
  have hne : ¬((doc ++ runTokens s pos pres sufs infs specs).length = 0) := by
    simp [h]
  rw [if_neg hne, setLastSpace_append h]

/-- The full per-run tokenization (`_tokenize`): it appends to the
document a non-empty token list that tiles the run, consists of
non-whitespace tokens, has clear `space_after` flags except possibly on
its last token, whose flag is the run's boundary flag. -/
theorem tokenizeRun_spec {cfg : TokenizerCfg} (hwf : WFcfg cfg)
    {s : List Char} (hs : s ≠ []) (tm : TokenMeta) (doc : List TokenMeta) :
    ∃ RL, tokenizeRun cfg s tm doc = some (doc ++ RL) ∧ RL ≠ [] ∧
      TilesTo RL tm.start_pos (tm.start_pos + (s.length : Int)) ∧
      (∀ t ∈ RL, t.is_space = false) ∧
      (∀ t ∈ RL.dropLast, t.space_after = false) ∧
      (RL.getLastD dTok).space_after = tm.space_after := by
  obtain ⟨s1, pos1, pres, sufs, infs, specs, heq, htile, hne, hflags⟩ :=
    splitAffixes_spec hwf hs tm.start_pos
  refine ⟨setLastSpace tm.space_after (runTokens s1 pos1 pres sufs infs specs),
    ?_, setLastSpace_ne_nil hne, setLastSpace_tilesTo htile,
    setLastSpace_is_space (fun t ht => (hflags t ht).1), ?_, ?_⟩
  · unfold tokenizeRun
    rw [heq]
    exact attachTokens_eq hne
  · rw [setLastSpace_dropLast]
    intro t ht
    exact (hflags t (List.dropLast_subset _ ht)).2
  · rw [setLastSpace_getLastD hne]

end Tok

namespace Tok

/-! ## Reduction lemmas for the scanner steps -/

theorem stepTrans_id {cfg : TokenizerCfg} {text : List Char} {i pos : Nat}
    {isSp : Bool} {doc : List TokenMeta}
    (htr : (text.getD i ' ').isWhitespace = isSp) :
    stepTrans cfg text i pos isSp doc = some (pos, isSp, doc) := by
  unfold stepTrans
  rw [if_pos htr]

theorem stepTrans_ws {cfg : TokenizerCfg} {text : List Char} {i pos : Nat}
    {isSp : Bool} {doc : List TokenMeta}
    (htr : ¬((text.getD i ' ').isWhitespace = isSp)) (hsp : isSp = true)
    (hi : i < text.length) :
    stepTrans cfg text i pos isSp doc =
      some (i, (text.getD i ' ').isWhitespace,
        doc ++ [⟨(pos : Int), some ((i : Int) - 1),
          (text.getD i ' ').isWhitespace, isSp⟩]) := by
  have hics : (text.getD i ' ').isWhitespace = false := by
    rcases Bool.eq_false_or_eq_true (text.getD i ' ').isWhitespace with hh | hh
    · exact absurd (hh.trans hsp.symm) htr
    · exact hh
  unfold stepTrans
  rw [if_neg htr, hsp]
  simp only [if_true, ite_true, hics, Bool.false_eq_true, if_false, ite_false]
  show some (i, _, _) = _
  rw [if_pos hi]

theorem stepTrans_run {cfg : TokenizerCfg} {text : List Char} {i pos : Nat}
    {isSp : Bool} {doc D : List TokenMeta}
    (htr : ¬((text.getD i ' ').isWhitespace = isSp)) (hsp : isSp = false)
    (heq : tokenizeRun cfg ((text.take i).drop pos)
      ⟨(pos : Int), some ((i : Int) - 1), (text.getD i ' ').isWhitespace, false⟩ doc
      = some D) :
    stepTrans cfg text i pos isSp doc =
      some (i + 1,
        (if i + 1 < text.length then (text.getD (i + 1) ' ').isWhitespace else isSp),
        D) := by
  have hics : (text.getD i ' ').isWhitespace = true := by
    rcases Bool.eq_false_or_eq_true (text.getD i ' ').isWhitespace with hh | hh
    · exact hh
    · exact absurd (hh.trans hsp.symm) htr
  unfold stepTrans
  rw [if_neg htr]
  simp only [hsp, Bool.false_eq_true, if_false, ite_false]
  rw [heq]
  simp only [hics, if_true, ite_true]
  rfl

theorem stepLast_skip {cfg : TokenizerCfg} {text : List Char} {i pos1 : Nat}
    {isSp1 : Bool} {d1 : List TokenMeta}
    (h : ¬(i = text.length - 1 ∧ pos1 ≤ i)) :
    stepLast cfg text i pos1 isSp1 d1 = some (pos1, isSp1, d1) := by
  unfold stepLast
  rw [if_neg h]

theorem stepLast_ws {cfg : TokenizerCfg} {text : List Char} {i pos1 : Nat}
    {isSp1 : Bool} {d1 : List TokenMeta}
    (h : i = text.length - 1 ∧ pos1 ≤ i) (hsp : isSp1 = true) :
    stepLast cfg text i pos1 isSp1 d1 =
      some (pos1, isSp1,
        d1 ++ [⟨(pos1 : Int), none, (text.getD i ' ').isWhitespace, isSp1⟩]) := by
  unfold stepLast
  rw [if_pos h, hsp]
  simp only [if_true, ite_true]
  rfl

theorem stepLast_run {cfg : TokenizerCfg} {text : List Char} {i pos1 : Nat}
    {isSp1 : Bool} {d1 D : List TokenMeta}
    (h : i = text.length - 1 ∧ pos1 ≤ i) (hsp : isSp1 = false)
    (heq : tokenizeRun cfg (text.drop pos1)
      ⟨(pos1 : Int), none, (text.getD i ' ').isWhitespace, false⟩ d1 = some D) :
    stepLast cfg text i pos1 isSp1 d1 = some (pos1, isSp1, D) := by
  unfold stepLast
  rw [if_pos h]
  simp only [hsp, Bool.false_eq_true, if_false, ite_false]
  rw [heq]
  rfl

theorem tokenizeSteps_cons {cfg : TokenizerCfg} {text : List Char} {i : Nat}
    {rest : List Nat} {pos : Nat} {isSp : Bool} {doc : List TokenMeta}
    {st : Nat × Bool × List TokenMeta}
    (h : stepIdx cfg text i pos isSp doc = some st) :
    tokenizeSteps cfg text (i :: rest) pos isSp doc =
      tokenizeSteps cfg text rest st.1 st.2.1 st.2.2 := by
  show (stepIdx cfg text i pos isSp doc).bind _ = _
  rw [h]
  rfl

end Tok

namespace Tok

theorem chainTo_single {t : TokenMeta} {a b e : Int} (hs : t.start_pos = a)
    (he : t.end_pos = some e) (hle : a ≤ e + 1)
    (hb : e + 1 + (if t.space_after then 1 else 0) = b) : ChainTo [t] a b :=
  ⟨hs, e, he, hle, hb⟩

theorem chainEnd_single {n : Nat} {t : TokenMeta} {a : Int} (hs : t.start_pos = a)
    (hcond : effEnd n t + (if t.space_after ∧ t.is_space = false then 1 else 0)
      = (n : Int) - 1) : ChainEnd n [t] a :=
  ⟨hs, hcond⟩

theorem stepIdx_eq_of {cfg : TokenizerCfg} {text : List Char} {i pos : Nat}
    {isSp : Bool} {doc : List TokenMeta} {p1 : Nat} {b1 : Bool}
    {d1 : List TokenMeta} {r : Option (Nat × Bool × List TokenMeta)}
    (h1 : stepTrans cfg text i pos isSp doc = some (p1, b1, d1))
    (h2 : stepLast cfg text i p1 b1 d1 = r) :
    stepIdx cfg text i pos isSp doc = r := by
  unfold stepIdx
  rw [h1]
  exact h2

theorem run_chainTo {RL : List TokenMeta} {a b : Int} {sab : Bool}
    (htile : TilesTo RL a b) (hmid : ∀ t ∈ RL.dropLast, t.space_after = false)
    (hne : RL ≠ []) (hlast : (RL.getLastD dTok).space_after = sab) :
    ChainTo RL a (b + (if sab then 1 else 0)) := by
  have := chainTo_of_tilesTo htile hmid hne
  rw [hlast] at this
  exact this

theorem run_chainEnd {n : Nat} {RL : List TokenMeta} {a b : Int} {sab : Bool}
    (htile : TilesTo RL a b) (hmid : ∀ t ∈ RL.dropLast, t.space_after = false)
    (hws : ∀ t ∈ RL, t.is_space = false) (hne : RL ≠ [])
    (hlast : (RL.getLastD dTok).space_after = sab)
    (hn : b + (if sab then 1 else 0) = (n : Int)) : ChainEnd n RL a := by
  refine chainEnd_of_tilesTo htile hmid hws hne ?_
  rw [hlast]
  exact hn

theorem sliceI_zero_eq (text : List Char) (b : Nat) :
    sliceI text 0 (b : Int) = text.take b := by
  unfold sliceI
  simp

theorem sliceI_drop_eq (text : List Char) (pos : Nat) :
    sliceI text (pos : Int) (text.length : Int) = text.drop pos := by
  unfold sliceI
  simp

theorem ws_end_append {A B : List TokenMeta}
    (ha : ∀ t ∈ A, t.is_space = true → t.end_pos ≠ none → t.space_after = false)
    (hb : ∀ t ∈ B, t.is_space = true → t.end_pos ≠ none → t.space_after = false) :
    ∀ t ∈ A ++ B, t.is_space = true → t.end_pos ≠ none → t.space_after = false := by
  intro t ht
  rcases List.mem_append.mp ht with hh | hh
  · exact ha t hh
  · exact hb t hh

end Tok

namespace Tok

set_option maxHeartbeats 2000000 in
/-- Main induction over the scanner: from any loop state satisfying the
invariant (position within bounds, `is_space` tracking the class of the
character at `pos`, the document a gap-aware chain from `0` to `pos` in
which whitespace tokens carry no `space_after` flag), the remaining
iterations produce a span list that chains over the whole document,
reconstructs it, and whose mid-document whitespace spans carry a clear
`space_after` flag. -/
theorem tokenizeSteps_spec {cfg : TokenizerCfg} (hwf : WFcfg cfg)
    (text : List Char) :
    ∀ (k i pos : Nat) (isSp : Bool) (doc : List TokenMeta),
      i + k = text.length → 1 ≤ k → pos ≤ i →
      isSp = (text.getD pos ' ').isWhitespace →
      ChainTo doc 0 (pos : Int) →
      (∀ t ∈ doc, t.is_space = true → t.space_after = false) →
      ∃ spans, tokenizeSteps cfg text (List.range' i k) pos isSp doc = some spans ∧
        ChainEnd text.length spans 0 ∧
        reconAll text spans = text ∧
        (∀ t ∈ spans, t.is_space = true → t.end_pos ≠ none →
          t.space_after = false) := by
  intro k
  induction k with
  | zero => intro i pos isSp doc hik hk; omega
  | succ k ih =>
    intro i pos isSp doc hik hk hpos hsp hchain hws
    have hi : i < text.length := by omega
    have hrange : List.range' i (k + 1) = i :: List.range' (i + 1) k := rfl
    rw [hrange]
    by_cases hklast : k = 0
    · -- final iteration: i is the last index
      subst hklast
      have hin : i = text.length - 1 := by omega
      have hrest : List.range' (i + 1) 0 = [] := rfl
      by_cases htr : (text.getD i ' ').isWhitespace = isSp
      · -- no run boundary at the last index; the open run is closed by the
        -- end-of-text block
        have htrans := @stepTrans_id cfg text i pos isSp doc htr
        by_cases hb : isSp = true
        · -- final whitespace run, emitted directly
          have hlast := @stepLast_ws cfg text i pos isSp doc ⟨hin, hpos⟩ hb
          have hstep := stepIdx_eq_of htrans hlast
          rw [tokenizeSteps_cons hstep, hrest]
          refine ⟨_, rfl, ?_, ?_, ?_⟩
          · refine chainEnd_append hchain (chainEnd_single rfl ?_)
            show effEnd text.length ⟨(pos : Int), none, _, isSp⟩ + _ = _
            rw [hb]
            simp [effEnd]
          · rw [reconAll_append]
            rw [reconAll_of_chainTo hchain (by omega) hws]
            have h1 : sliceI text 0 (pos : Int) = text.take pos := sliceI_zero_eq ..
            rw [h1]
            have h2 : reconAll text [⟨(pos : Int), none,
                (text.getD i ' ').isWhitespace, isSp⟩] = text.drop pos := by
              unfold reconAll reconTok sliceTok
              rw [hb]
              simp
            rw [h2]
            exact List.take_append_drop pos text
          · refine ws_end_append (fun t ht h1 h2 => hws t ht h1) ?_
            intro t ht h1 h2
            simp at ht
            subst ht
            simp at h2
        · -- final non-space run, handed to the cascade
          have hbF : isSp = false := by simpa using hb
          have hsne : text.drop pos ≠ [] := by
            have : (text.drop pos).length = text.length - pos := List.length_drop ..
            intro hcon
            rw [hcon] at this
            simp at this
            omega
          obtain ⟨RL, hreq, hRLne, hRTile, hRws, hRmid, hRlast⟩ :=
            tokenizeRun_spec hwf hsne
              ⟨(pos : Int), none, (text.getD i ' ').isWhitespace, false⟩ doc
          have hlast := @stepLast_run cfg text i pos isSp doc (doc ++ RL)
            ⟨hin, hpos⟩ hbF hreq
          have hstep := stepIdx_eq_of htrans hlast
          rw [tokenizeSteps_cons hstep, hrest]
          have hlen : ((text.drop pos).length : Int) = (text.length : Int) - pos := by
            rw [List.length_drop]
            omega
          have hicsF : (text.getD i ' ').isWhitespace = false := htr.trans hbF
          have hsaF : (RL.getLastD dTok).space_after = false := hRlast.trans hicsF
          have hTileN : TilesTo RL (pos : Int) (text.length : Int) := by
            have := hRTile
            rw [hlen] at this
            have hc : (pos : Int) + ((text.length : Int) - pos) = (text.length : Int) := by
              omega
            rw [hc] at this
            exact this
          refine ⟨_, rfl, ?_, ?_, ?_⟩
          · refine chainEnd_append hchain ?_
            refine run_chainEnd hTileN hRmid hRws hRLne hsaF ?_
            simp
          · rw [reconAll_append]
            rw [reconAll_of_chainTo hchain (by omega) hws]
            rw [sliceI_zero_eq]
            have hcRL : ChainTo RL (pos : Int) (text.length : Int) := by
              have := run_chainTo hTileN hRmid hRLne hsaF
              simpa using this
            rw [reconAll_of_chainTo hcRL (by omega)
              (fun t ht hw => absurd (hRws t ht) (by simp [hw]))]
            rw [sliceI_drop_eq]
            exact List.take_append_drop pos text
          · refine ws_end_append (fun t ht h1 h2 => hws t ht h1) ?_
            intro t ht h1 h2
            exact absurd (hRws t ht) (by simp [h1])
      · -- a run boundary at the last index
        by_cases hb : isSp = true
        · -- a whitespace run closes; the new non-space run [i, i] is then
          -- closed by the end-of-text block through the cascade
          have htrans := @stepTrans_ws cfg text i pos isSp doc htr hb hi
          have hicsF : (text.getD i ' ').isWhitespace = false := by
            rcases Bool.eq_false_or_eq_true (text.getD i ' ').isWhitespace with hh | hh
            · exact absurd (hh.trans hb.symm) htr
            · exact hh
          have hsne : text.drop i ≠ [] := by
            have : (text.drop i).length = text.length - i := List.length_drop ..
            intro hcon
            rw [hcon] at this
            simp at this
            omega
          obtain ⟨RL, hreq, hRLne, hRTile, hRws, hRmid, hRlast⟩ :=
            tokenizeRun_spec hwf hsne
              ⟨(i : Int), none, (text.getD i ' ').isWhitespace, false⟩
              (doc ++ [⟨(pos : Int), some ((i : Int) - 1),
                (text.getD i ' ').isWhitespace, isSp⟩])
          have hlast := @stepLast_run cfg text i i ((text.getD i ' ').isWhitespace)
            (doc ++ [⟨(pos : Int), some ((i : Int) - 1),
              (text.getD i ' ').isWhitespace, isSp⟩])
            ((doc ++ [⟨(pos : Int), some ((i : Int) - 1),
              (text.getD i ' ').isWhitespace, isSp⟩]) ++ RL)
            ⟨hin, le_refl i⟩ hicsF hreq
          have hstep := stepIdx_eq_of htrans hlast
          rw [tokenizeSteps_cons hstep, hrest]
          have hchain1 : ChainTo (doc ++ [⟨(pos : Int), some ((i : Int) - 1),
              (text.getD i ' ').isWhitespace, isSp⟩]) 0 (i : Int) := by
            refine chainTo_append hchain (chainTo_single rfl rfl (by omega) ?_)
            show (i : Int) - 1 + 1 + (if (text.getD i ' ').isWhitespace then 1 else 0)
              = (i : Int)
            rw [hicsF]
            simp
          have hws1 : ∀ t ∈ doc ++ [⟨(pos : Int), some ((i : Int) - 1),
              (text.getD i ' ').isWhitespace, isSp⟩],
              t.is_space = true → t.space_after = false := by
            intro t ht hw
            rcases List.mem_append.mp ht with hh | hh
            · exact hws t hh hw
            · simp at hh
              subst hh
              simpa using hicsF
          have hlen : ((text.drop i).length : Int) = (text.length : Int) - i := by
            rw [List.length_drop]
            omega
          have hTileN : TilesTo RL (i : Int) (text.length : Int) := by
            have := hRTile
            rw [hlen] at this
            have hc : (i : Int) + ((text.length : Int) - i) = (text.length : Int) := by
              omega
            rw [hc] at this
            exact this
          have hsaF : (RL.getLastD dTok).space_after = false := hRlast.trans hicsF
          refine ⟨_, rfl, ?_, ?_, ?_⟩
          · refine chainEnd_append hchain1 ?_
            refine run_chainEnd hTileN hRmid hRws hRLne hsaF ?_
            simp
          · rw [reconAll_append]
            rw [reconAll_of_chainTo hchain1 (by omega) hws1]
            rw [sliceI_zero_eq]
            have hcRL : ChainTo RL (i : Int) (text.length : Int) := by
              have := run_chainTo hTileN hRmid hRLne hsaF
              simpa using this
            rw [reconAll_of_chainTo hcRL (by omega)
              (fun t ht hw => absurd (hRws t ht) (by simp [hw]))]
            rw [sliceI_drop_eq]
            exact List.take_append_drop i text
          · refine ws_end_append (ws_end_append (fun t ht h1 h2 => hws t ht h1) ?_) ?_
            · intro t ht h1 h2
              simp at ht
              subst ht
              simpa using hicsF
            · intro t ht h1 h2
              exact absurd (hRws t ht) (by simp [h1])
        · -- a non-space run closes at a final white space, which is skipped;
          -- the end-of-text block does not fire (`pos` passes the last index)
          have hbF : isSp = false := by simpa using hb
          have hicsT : (text.getD i ' ').isWhitespace = true := by
            rcases Bool.eq_false_or_eq_true (text.getD i ' ').isWhitespace with hh | hh
            · exact hh
            · exact absurd (hh.trans hbF.symm) htr
          have hposlt : pos < i := by
            rcases Nat.lt_or_ge pos i with hh | hh
            · exact hh
            · have : pos = i := by omega
              subst this
              exact absurd (hsp.symm.trans rfl) (fun hc => htr (hc ▸ rfl))
          have hsne : (text.take i).drop pos ≠ [] := by
            have : ((text.take i).drop pos).length = i - pos := by
              rw [List.length_drop, List.length_take]
              omega
            intro hcon
            rw [hcon] at this
            simp at this
            omega
          obtain ⟨RL, hreq, hRLne, hRTile, hRws, hRmid, hRlast⟩ :=
            tokenizeRun_spec hwf hsne
              ⟨(pos : Int), some ((i : Int) - 1),
                (text.getD i ' ').isWhitespace, false⟩ doc
          have htrans := @stepTrans_run cfg text i pos isSp doc (doc ++ RL) htr hbF hreq
          have hnolast : ¬(i = text.length - 1 ∧ i + 1 ≤ i) := by omega
          have hlast := @stepLast_skip cfg text i (i + 1)
            (if i + 1 < text.length then (text.getD (i + 1) ' ').isWhitespace
              else isSp) (doc ++ RL) hnolast
          have hstep := stepIdx_eq_of htrans hlast
          rw [tokenizeSteps_cons hstep, hrest]
          have hlen : (((text.take i).drop pos).length : Int) = (i : Int) - pos := by
            rw [List.length_drop, List.length_take]
            omega
          have hTileN : TilesTo RL (pos : Int) (i : Int) := by
            have := hRTile
            rw [hlen] at this
            have hc : (pos : Int) + ((i : Int) - pos) = (i : Int) := by omega
            rw [hc] at this
            exact this
          have hlastT : (RL.getLastD dTok).space_after = true := hRlast.trans hicsT
          refine ⟨_, rfl, ?_, ?_, ?_⟩
          · refine chainEnd_append hchain ?_
            refine run_chainEnd hTileN hRmid hRws hRLne hlastT ?_
            simp
            omega
          · rw [reconAll_append]
            rw [reconAll_of_chainTo hchain (by omega) hws]
            rw [sliceI_zero_eq]
            have hcRL : ChainTo RL (pos : Int) (text.length : Int) := by
              have := run_chainTo hTileN hRmid hRLne hlastT
              simp at this
              have hc : (i : Int) + 1 = (text.length : Int) := by omega
              rw [hc] at this
              exact this
            rw [reconAll_of_chainTo hcRL (by omega)
              (fun t ht hw => absurd (hRws t ht) (by simp [hw]))]
            rw [sliceI_drop_eq]
            exact List.take_append_drop pos text
          · refine ws_end_append (fun t ht h1 h2 => hws t ht h1) ?_
            intro t ht h1 h2
            exact absurd (hRws t ht) (by simp [h1])
    · -- not the last index: the end-of-text block does not fire
      have hk1 : 1 ≤ k := by omega
      have hinot : ¬(i = text.length - 1) := by omega
      by_cases htr : (text.getD i ' ').isWhitespace = isSp
      · -- no run boundary: state unchanged
        have htrans := @stepTrans_id cfg text i pos isSp doc htr
        have hlast := @stepLast_skip cfg text i pos isSp doc (fun hc => hinot hc.1)
        have hstep := stepIdx_eq_of htrans hlast
        rw [tokenizeSteps_cons hstep]
        exact ih (i + 1) pos isSp doc (by omega) hk1 (by omega) hsp hchain hws
      · by_cases hb : isSp = true
        · -- a whitespace run closes: emit it as one token, `pos` moves to `i`
          have htrans := @stepTrans_ws cfg text i pos isSp doc htr hb hi
          have hicsF : (text.getD i ' ').isWhitespace = false := by
            rcases Bool.eq_false_or_eq_true (text.getD i ' ').isWhitespace with hh | hh
            · exact absurd (hh.trans hb.symm) htr
            · exact hh
          have hlast := @stepLast_skip cfg text i i
            ((text.getD i ' ').isWhitespace)
            (doc ++ [⟨(pos : Int), some ((i : Int) - 1),
              (text.getD i ' ').isWhitespace, isSp⟩])
            (fun hc => hinot hc.1)
          have hstep := stepIdx_eq_of htrans hlast
          rw [tokenizeSteps_cons hstep]
          have hchain1 : ChainTo (doc ++ [⟨(pos : Int), some ((i : Int) - 1),
              (text.getD i ' ').isWhitespace, isSp⟩]) 0 (i : Int) := by
            refine chainTo_append hchain (chainTo_single rfl rfl (by omega) ?_)
            show (i : Int) - 1 + 1 + (if (text.getD i ' ').isWhitespace then 1 else 0)
              = (i : Int)
            rw [hicsF]
            simp
          have hws1 : ∀ t ∈ doc ++ [⟨(pos : Int), some ((i : Int) - 1),
              (text.getD i ' ').isWhitespace, isSp⟩],
              t.is_space = true → t.space_after = false := by
            intro t ht hw
            rcases List.mem_append.mp ht with hh | hh
            · exact hws t hh hw
            · simp at hh
              subst hh
              simpa using hicsF
          exact ih (i + 1) i (text.getD i ' ').isWhitespace _ (by omega) hk1
            (by omega) rfl hchain1 hws1
        · -- a non-space run closes at a white space: the cascade runs, the
          -- space is skipped (`pos = i + 1`)
          have hbF : isSp = false := by simpa using hb
          have hicsT : (text.getD i ' ').isWhitespace = true := by
            rcases Bool.eq_false_or_eq_true (text.getD i ' ').isWhitespace with hh | hh
            · exact hh
            · exact absurd (hh.trans hbF.symm) htr
          have hposlt : pos < i := by
            rcases Nat.lt_or_ge pos i with hh | hh
            · exact hh
            · have : pos = i := by omega
              subst this
              exact absurd (hsp.symm.trans rfl) (fun hc => htr (hc ▸ rfl))
          have hsne : (text.take i).drop pos ≠ [] := by
            have : ((text.take i).drop pos).length = i - pos := by
              rw [List.length_drop, List.length_take]
              omega
            intro hcon
            rw [hcon] at this
            simp at this
            omega
          obtain ⟨RL, hreq, hRLne, hRTile, hRws, hRmid, hRlast⟩ :=
            tokenizeRun_spec hwf hsne
              ⟨(pos : Int), some ((i : Int) - 1),
                (text.getD i ' ').isWhitespace, false⟩ doc
          have htrans := @stepTrans_run cfg text i pos isSp doc (doc ++ RL) htr hbF hreq
          have hlast := @stepLast_skip cfg text i (i + 1)
            (if i + 1 < text.length then (text.getD (i + 1) ' ').isWhitespace
              else isSp) (doc ++ RL) (fun hc => hinot hc.1)
          have hstep := stepIdx_eq_of htrans hlast
          rw [tokenizeSteps_cons hstep]
          have hlen : (((text.take i).drop pos).length : Int) = (i : Int) - pos := by
            rw [List.length_drop, List.length_take]
            omega
          have hTileN : TilesTo RL (pos : Int) (i : Int) := by
            have := hRTile
            rw [hlen] at this
            have hc : (pos : Int) + ((i : Int) - pos) = (i : Int) := by omega
            rw [hc] at this
            exact this
          have hlastT : (RL.getLastD dTok).space_after = true := hRlast.trans hicsT
          have hchain1 : ChainTo (doc ++ RL) 0 ((i + 1 : Nat) : Int) := by
            refine chainTo_append hchain ?_
            have := run_chainTo hTileN hRmid hRLne hlastT
            simp at this
            have hc : (i : Int) + 1 = ((i + 1 : Nat) : Int) := by omega
            rw [hc] at this
            exact this
          have hws1 : ∀ t ∈ doc ++ RL, t.is_space = true → t.space_after = false := by
            intro t ht hw
            rcases List.mem_append.mp ht with hh | hh
            · exact hws t hh hw
            · exact absurd (hRws t hh) (by simp [hw])
          have hlt : i + 1 < text.length := by omega
          have hsp1 : (if i + 1 < text.length then (text.getD (i + 1) ' ').isWhitespace
              else isSp) = (text.getD (i + 1) ' ').isWhitespace := if_pos hlt
          rw [hsp1]
          exact ih (i + 1) (i + 1) (text.getD (i + 1) ' ').isWhitespace _ (by omega)
            hk1 (le_refl _) rfl hchain1 hws1

end Tok

namespace Tok

/-- Top-level specification of `Tokenizer.__call__` on a non-empty text
under a well-formed configuration: the call succeeds, and the produced
span sequence chains over the whole document with the single-skipped-
space accounting, reconstructs the document, and gives every
mid-document whitespace span a clear `space_after` flag. -/
theorem tokenizeText_spec {cfg : TokenizerCfg} (hwf : WFcfg cfg)
    {text : List Char} (h : text ≠ []) :
    ∃ spans, tokenizeText cfg text = some spans ∧
      ChainEnd text.length spans 0 ∧
      reconAll text spans = text ∧
      (∀ t ∈ spans, t.is_space = true → t.end_pos ≠ none →
        t.space_after = false) := by
  cases text with
  | nil => exact absurd rfl h
  | cons c rest =>
    have hres : tokenizeText cfg (c :: rest)
        = tokenizeSteps cfg (c :: rest) (List.range' 0 (c :: rest).length) 0
          c.isWhitespace [] := by
      unfold tokenizeText
      rw [List.range_eq_range']
    rw [hres]
    refine tokenizeSteps_spec hwf (c :: rest) (c :: rest).length 0 0 c.isWhitespace []
      (by omega) (by simp) (le_refl 0) rfl rfl ?_
    intro t ht
    simp at ht

/-! ## Equality of the infix splitter under removal of zero-length
matches located at the scan offset -/

theorem infLoop_dropDeg {s : List Char} :
    ∀ (ms : List (Nat × Nat)) (off : Nat), ZeroAtOff s.length off ms →
      ∀ (pos : Int) (e : Int),
        infLoop s ms pos off e = infLoop s (dropDegenerate ms) pos off e := by
  intro ms
  induction ms with
  | nil => intro off hz pos e; rfl
  | cons m rest ih =>
    obtain ⟨st, en⟩ := m
    intro off hz pos e
    obtain ⟨h1, h2, h3, h4, hrest⟩ := hz
    by_cases hdeg : st = en
    · -- a zero-length match at the current offset: a no-op step
      have hoff : st = off := h4 hdeg
      subst hoff
      subst hdeg
      have hg0 : ((s.take st).drop st).length = 0 := by
        rw [List.length_drop, List.length_take]
        omega
      have hdrop : dropDegenerate ((st, st) :: rest) = dropDegenerate rest := by
        unfold dropDegenerate
        simp
      rw [hdrop]
      have hlhs : infLoop s ((st, st) :: rest) pos st e
          = infLoop s rest pos st e := by
        simp only [infLoop, hg0, ne_eq, not_true_eq_false, if_false, ite_false]
        cases hrec : infLoop s rest pos st e with
        | mk ts3 r =>
          simp
      rw [hlhs]
      exact ih st hrest pos e
    · -- a genuine match: both sides take the same step
      have hlt : st < en := by omega
      have hdrop : dropDegenerate ((st, en) :: rest) = (st, en) :: dropDegenerate rest := by
        unfold dropDegenerate
        simp [hlt]
      rw [hdrop]
      simp only [infLoop]
      have hih : ∀ (p : Int) (ee : Int),
          infLoop s rest p en ee = infLoop s (dropDegenerate rest) p en ee :=
        fun p ee => ih en hrest p ee
      simp only [hih]

theorem infTokenMeta_dropDeg {s : List Char} {pos : Int} {ms : List (Nat × Nat)}
    (hz : ZeroAtOff s.length 0 ms) :
    infTokenMeta s pos ms = infTokenMeta s pos (dropDegenerate ms) := by
  unfold infTokenMeta
  rw [infLoop_dropDeg ms 0 hz pos 0]

theorem preTokenMeta_ext {cfg cfg' : TokenizerCfg}
    (h : cfg.preLen = cfg'.preLen) : preTokenMeta cfg = preTokenMeta cfg' := by
  funext s pos
  unfold preTokenMeta
  rw [h]

theorem sufTokenMeta_ext {cfg cfg' : TokenizerCfg}
    (h : cfg.sufLen = cfg'.sufLen) : sufTokenMeta cfg = sufTokenMeta cfg' := by
  funext s pos
  unfold sufTokenMeta
  rw [h]

/-- The affix-stripping loop does not consult the infix matcher. -/
theorem affixLoop_ext {cfg cfg' : TokenizerCfg}
    (h1 : cfg.preLen = cfg'.preLen) (h2 : cfg.sufLen = cfg'.sufLen)
    (h3 : cfg.specials = cfg'.specials) :
    ∀ (fuel : Nat) (s : List Char) (pos : Int) (pres sufs : List TokenMeta),
      affixLoop cfg fuel s pos pres sufs = affixLoop cfg' fuel s pos pres sufs := by
  intro fuel
  induction fuel with
  | zero => intro s pos pres sufs; rfl
  | succ fuel ih =>
    intro s pos pres sufs
    simp only [affixLoop, h1, h2, h3, preTokenMeta_ext h1, sufTokenMeta_ext h2, ih]

end Tok

namespace Tok

/-- Branch structure of `_split_affixes`: at least two of the three
outcome groups {special tokens, remaining substring, infix tokens} are
empty, by the `if`/`elif` structure alone (no well-formedness needed). -/
theorem splitAffixes_branches {cfg : TokenizerCfg} {s : List Char} {pos : Int}
    {mid : List Char} {pos1 : Int} {pres sufs infs specs : List TokenMeta}
    (h : splitAffixes cfg s pos = some (mid, pos1, pres, sufs, infs, specs)) :
    (mid = [] ∧ infs = []) ∨ (mid = [] ∧ specs = []) ∨ (specs = [] ∧ infs = []) := by
  unfold splitAffixes at h
  by_cases hs0 : s.length = 0
  · rw [if_pos hs0] at h
    simp only [Option.some.injEq, Prod.mk.injEq] at h
    obtain ⟨-, -, -, -, h5, h6⟩ := h
    exact Or.inr (Or.inr ⟨h6.symm, h5.symm⟩)
  · rw [if_neg hs0] at h
    cases hl : affixLoop cfg (s.length + 1) s pos [] [] with
    | none => rw [hl] at h; cases h
    | some r =>
      obtain ⟨s1, p1, pr, su⟩ := r
      rw [hl] at h
      cases hsp : cfg.specials s1 with
      | some entry =>
        simp only [hsp, Option.some.injEq, Prod.mk.injEq] at h
        obtain ⟨h1, -, -, -, h5, -⟩ := h
        exact Or.inl ⟨h1.symm, h5.symm⟩
      | none =>
        simp only [hsp] at h
        by_cases hinf : cfg.infMatches s1 ≠ []
        · rw [if_pos hinf] at h
          simp only [Option.some.injEq, Prod.mk.injEq] at h
          obtain ⟨h1, -, -, -, -, h6⟩ := h
          exact Or.inr (Or.inl ⟨h1.symm, h6.symm⟩)
        · rw [if_neg hinf] at h
          simp only [Option.some.injEq, Prod.mk.injEq] at h
          obtain ⟨-, -, -, -, h5, h6⟩ := h
          exact Or.inr (Or.inr ⟨h6.symm, h5.symm⟩)

theorem cfgTriv_wf : WFcfg cfgTriv := by
  constructor
  · intro s; simp [cfgTriv]
  · intro s; simp [cfgTriv]
  · intro s; simp [cfgTriv, MatchesOK]
  · intro s entry h; simp [cfgTriv] at h

theorem cfgPar_wf : WFcfg cfgPar := by
  constructor
  · intro s
    show (if s = ['('] then 1 else 0) ≤ s.length
    by_cases h : s = ['(']
    · rw [if_pos h, h]; simp
    · rw [if_neg h]; omega
  · intro s; simp [cfgPar]
  · intro s; simp [cfgPar, MatchesOK]
  · intro s entry h; simp [cfgPar] at h

end Tok

namespace Tok

/-! ## Settling the claims -/

/-- C1, counterexample: under the well-formed trivial configuration, the
document `"a b"` tokenizes to the spans `(0,0)` and `(2,2)` — the single
space at index 1 is skipped by the scanner — so concatenating the
substrings denoted by the spans yields `"ab"`, not the document. -/
theorem c1_counterexample :
    WFcfg cfgTriv ∧
    tokenizeText cfgTriv ['a', ' ', 'b'] =
      some [⟨0, some 0, true, false⟩, ⟨2, some 2, false, false⟩] ∧
    plainConcat ['a', ' ', 'b']
      [⟨0, some 0, true, false⟩, ⟨2, some 2, false, false⟩] ≠ ['a', ' ', 'b'] :=
  ⟨cfgTriv_wf, by decide, by decide⟩

/-- C1, amended: for every well-formed matcher configuration and every
non-empty document, tokenization succeeds and concatenating, in order,
each span's denoted substring followed by the single skipped white-space
character recorded by a set `space_after` flag on a non-whitespace span
(the character at `end_pos + 1`) reproduces the document exactly. -/
theorem c1_theorem {cfg : TokenizerCfg} (hwf : WFcfg cfg) {text : List Char}
    (h : text ≠ []) :
    ∃ spans, tokenizeText cfg text = some spans ∧ reconAll text spans = text := by
  obtain ⟨spans, h1, -, h3, -⟩ := tokenizeText_spec hwf h
  exact ⟨spans, h1, h3⟩

/-- C1, witness of the amended theorem at the document `"a b"`. -/
theorem c1_witness :
    ∃ spans, tokenizeText cfgTriv ['a', ' ', 'b'] = some spans ∧
      reconAll ['a', ' ', 'b'] spans = ['a', ' ', 'b'] :=
  c1_theorem cfgTriv_wf (by decide)

/-- C2, counterexample: on `"a b"` (trivial well-formed configuration)
the produced spans are `(0,0)` and `(2,2)`: the second span does not
start at `end + 1` of the first, so the claimed plain contiguity fails. -/
theorem c2_counterexample :
    WFcfg cfgTriv ∧
    tokenizeText cfgTriv ['a', ' ', 'b'] =
      some [⟨0, some 0, true, false⟩, ⟨2, some 2, false, false⟩] ∧
    ¬ plainAdj ⟨0, some 0, true, false⟩ ⟨2, some 2, false, false⟩ :=
  ⟨cfgTriv_wf, by decide, by decide⟩

/-- C2, amended: for every well-formed configuration and non-empty
document, the spans satisfy the gap-aware contiguity `ChainEnd`: the
first span starts at 0; each next span starts at the previous span's
`end_pos + 1`, plus one more when the previous span's `space_after` flag
records a skipped white space; and the last span's effective end (its
`end_pos`, or `len - 1` for the open-to-end sentinel), plus one for a
skipped final white space on a non-whitespace span, equals `len - 1`. -/
theorem c2_theorem {cfg : TokenizerCfg} (hwf : WFcfg cfg) {text : List Char}
    (h : text ≠ []) :
    ∃ spans, tokenizeText cfg text = some spans ∧
      ChainEnd text.length spans 0 := by
  obtain ⟨spans, h1, h2, -, -⟩ := tokenizeText_spec hwf h
  exact ⟨spans, h1, h2⟩

/-- C2, witness of the amended theorem at the document `"a b"`. -/
theorem c2_witness :
    ∃ spans, tokenizeText cfgTriv ['a', ' ', 'b'] = some spans ∧
      ChainEnd 3 spans 0 :=
  c2_theorem cfgTriv_wf (by decide)

/-- C3: `Tokenizer.__call__` on the empty string does not return an
empty span sequence — it fails (the model returns `none`), because
`text[0].isspace()` is evaluated before the scan loop and raises
`IndexError` on an empty text, for every matcher configuration. -/
theorem c3_theorem (cfg : TokenizerCfg) : tokenizeText cfg [] = none := rfl

/-- C4, counterexample: on `" a"` (trivial well-formed configuration)
the whitespace run `[0,0]` is closed mid-document by the non-space
character `a`, and its emitted span carries `space_after = false`, not
`true` as claimed: the flag is set to `is_current_space`, the
white-space class of the closing character. -/
theorem c4_counterexample :
    WFcfg cfgTriv ∧
    tokenizeText cfgTriv [' ', 'a'] =
      some [⟨0, some 0, false, true⟩, ⟨1, some 1, false, false⟩] ∧
    (⟨0, some 0, false, true⟩ : TokenMeta).is_space = true ∧
    (⟨0, some 0, false, true⟩ : TokenMeta).end_pos ≠ none ∧
    (⟨0, some 0, false, true⟩ : TokenMeta).space_after ≠ true :=
  ⟨cfgTriv_wf, by decide, by decide, by decide, by decide⟩

/-- C4, amended: under a well-formed configuration, every whitespace-run
span closed mid-document (its `end_pos` is not the open-to-end sentinel)
has `space_after = false` — the flag records the white-space class of
the character that closed the run, which is a non-space character. -/
theorem c4_theorem {cfg : TokenizerCfg} (hwf : WFcfg cfg) {text : List Char}
    {spans : List TokenMeta} (h : tokenizeText cfg text = some spans) :
    ∀ t ∈ spans, t.is_space = true → t.end_pos ≠ none → t.space_after = false := by
  cases text with
  | nil => cases h
  | cons c rest =>
    obtain ⟨spans', heq, -, -, hws⟩ := @tokenizeText_spec cfg hwf (c :: rest) (by simp)
    rw [h] at heq
    injection heq with heqi
    rw [heqi]
    exact hws

/-- C4, witness of the amended theorem: the whitespace span of `" a"`. -/
theorem c4_witness : (⟨0, some 0, false, true⟩ : TokenMeta).space_after = false := by
  have h : tokenizeText cfgTriv [' ', 'a']
      = some [⟨0, some 0, false, true⟩, ⟨1, some 1, false, false⟩] := by decide
  exact c4_theorem cfgTriv_wf h ⟨0, some 0, false, true⟩ (by decide) (by decide)
    (by decide)

/-- C5: for matchers that never report a match longer than their input
(true of any `re.search`-backed matcher, including patterns that can
match the empty string), the affix-stripping loop terminates within a
number of iterations bounded by the run's length — `_split_affixes`
always returns — and an iteration in which both matchers report a
zero-length (or no) match exits the loop immediately with the state
unchanged. -/
theorem c5_theorem {cfg : TokenizerCfg}
    (hp : ∀ u, cfg.preLen u ≤ u.length) (hq : ∀ u, cfg.sufLen u ≤ u.length) :
    (∀ (s : List Char) (pos : Int), ∃ r, splitAffixes cfg s pos = some r) ∧
    (∀ (fuel : Nat) (s : List Char) (pos : Int) (pres sufs : List TokenMeta),
      cfg.preLen s = 0 → cfg.sufLen s = 0 →
      affixLoop cfg (fuel + 1) s pos pres sufs = some (s, pos, pres, sufs)) := by
  constructor
  · intro s pos
    by_cases hs0 : s.length = 0
    · refine ⟨(s, pos, [], [], [], []), ?_⟩
      unfold splitAffixes
      rw [if_pos hs0]
    · obtain ⟨s1, pos1, pres1, sufs1, hloop, -, -, -, -, -⟩ :=
        affixLoop_spec hp hq (s.length + 1) s pos [] [] pos (pos + (s.length : Int))
          (by omega) rfl rfl (by intro t ht; simp at ht) (by intro t ht; simp at ht)
      cases hsp : cfg.specials s1 with
      | some entry =>
        refine ⟨([], pos1, pres1, sufs1, [], specialTokenMeta entry pos1), ?_⟩
        unfold splitAffixes
        rw [if_neg hs0, hloop]
        simp only [hsp]
      | none =>
        by_cases hinf : cfg.infMatches s1 ≠ []
        · refine ⟨([], pos1, pres1, sufs1,
            infTokenMeta s1 pos1 (cfg.infMatches s1), []), ?_⟩
          unfold splitAffixes
          rw [if_neg hs0, hloop]
          simp only [hsp, hinf, ne_eq, not_false_eq_true, if_true, ite_true]
        · refine ⟨(s1, pos1, pres1, sufs1, [], []), ?_⟩
          unfold splitAffixes
          rw [if_neg hs0, hloop]
          simp only [hsp]
          rw [if_neg hinf]
  · intro fuel s pos pres sufs h1 h2
    exact affixLoop_exit ⟨h1, h2⟩

/-- C5, witness at the trivial configuration and the run `"ab"`. -/
theorem c5_witness :
    splitAffixes cfgTriv ['a', 'b'] 0 = some (['a', 'b'], 0, [], [], [], []) ∧
    affixLoop cfgTriv 1 ['a', 'b'] 0 [] [] = some (['a', 'b'], 0, [], []) := by
  have h := @c5_theorem cfgTriv (fun u => by simp [cfgTriv])
    (fun u => by simp [cfgTriv])
  exact ⟨by decide, h.2 0 ['a', 'b'] 0 [] [] rfl rfl⟩

end Tok

namespace Tok

/-- C6, counterexample: with the exception entry `"ab" ↦ ["abc"]`, whose
declared sub-token length 3 does not sum to the key length 2, the
tokenizer does not signal an error on the document `"ab"`: it returns
normally with the single span `(0,2)`, whose effective end violates the
contiguity requirement `end = len(D) - 1 = 1`. -/
theorem c6_counterexample :
    tokenizeText cfgExc ['a', 'b'] = some [⟨0, some 2, false, false⟩] ∧
    effEnd 2 ⟨0, some 2, false, false⟩ ≠ (2 : Int) - 1 :=
  ⟨by decide, by decide⟩

/-- C6, amended: the tokenizer performs no consistency check on
exception entries — `_get_special_cases_token_meta` emits exactly one
span per declared sub-token, consuming the declared `ORTH` lengths
unconditionally, so the emitted spans tile `pos .. pos + sum(lengths)`
regardless of the key they replace; with mismatched lengths the call
silently returns spans violating the contiguity invariant. -/
theorem c6_theorem (orths : List (List Char)) (pos : Int) :
    TilesTo (specialTokenMeta orths pos) pos
      (pos + ((orths.map List.length).sum : Int)) ∧
    (specialTokenMeta orths pos).length = orths.length :=
  ⟨specialTokenMeta_tilesTo orths pos, specialTokenMeta_length orths pos⟩

/-- C7, counterexample: an infix matcher whose only match on the run
`"ab"` is the zero-length match `(0,0)` corrupts the output: the
emitted span is `(1,2)` (its start computed from the sentinel
`end_pos = 0` instead of the run's offset), while with the zero-length
match absent (the trivial configuration) the run yields the span
`(0,1)` — the spans are not identical. -/
theorem c7_counterexample :
    tokenizeText cfgZinf ['a', 'b'] = some [⟨1, some 2, false, false⟩] ∧
    tokenizeText cfgTriv ['a', 'b'] = some [⟨0, some 1, false, false⟩] ∧
    tokenizeText cfgZinf ['a', 'b'] ≠ tokenizeText cfgTriv ['a', 'b'] :=
  ⟨by decide, by decide, by decide⟩

/-- C7, amended: a zero-length infix match is never surfaced as an
error, and a zero-length match located exactly at the scan offset (the
end of the previous match, or position 0 for the first) is a no-op:
provided every zero-length match sits at the scan offset and dropping
them leaves a non-empty match list whenever the list was non-empty, the
cascade's output is identical to that of the matcher with the
zero-length matches removed.  (Zero-length matches elsewhere split the
pending gap span, and a match list of only zero-length matches corrupts
the leftover span's start, as the counterexample shows.) -/
theorem c7_theorem (pre suf : List Char → Nat) (inf : List Char → List (Nat × Nat))
    (spec : List Char → Option (List (List Char)))
    (hz : ∀ s, ZeroAtOff s.length 0 (inf s))
    (hne : ∀ s, inf s ≠ [] → dropDegenerate (inf s) ≠ []) :
    ∀ (s : List Char) (pos : Int),
      splitAffixes ⟨pre, suf, inf, spec⟩ s pos
        = splitAffixes ⟨pre, suf, fun u => dropDegenerate (inf u), spec⟩ s pos := by
  intro s pos
  unfold splitAffixes
  by_cases hs0 : s.length = 0
  · rw [if_pos hs0, if_pos hs0]
  · rw [if_neg hs0, if_neg hs0]
    rw [@affixLoop_ext ⟨pre, suf, inf, spec⟩
      ⟨pre, suf, fun u => dropDegenerate (inf u), spec⟩ rfl rfl rfl]
    cases hl : affixLoop ⟨pre, suf, fun u => dropDegenerate (inf u), spec⟩
        (s.length + 1) s pos [] [] with
    | none => rfl
    | some r =>
      obtain ⟨s1, p1, pr, su⟩ := r
      cases hsp : spec s1 with
      | some entry => simp only [hsp]
      | none =>
        simp only [hsp]
        by_cases hi : inf s1 = []
        · have hd : dropDegenerate (inf s1) = [] := by rw [hi]; rfl
          rw [if_neg (by simp [hi]), if_neg (by simp [hd])]
        · have hd := hne s1 hi
          rw [if_pos hi, if_pos hd]
          rw [infTokenMeta_dropDeg (hz s1)]

/-- C7, witness of the amended theorem at a matcher with a zero-length
match at offset 0 followed by a genuine match on `"ab"`. -/
theorem c7_witness :
    splitAffixes ⟨(fun _ => 0), (fun _ => 0), infZmix, (fun _ => none)⟩ ['a', 'b'] 0
      = splitAffixes ⟨(fun _ => 0), (fun _ => 0),
          (fun u => dropDegenerate (infZmix u)), (fun _ => none)⟩ ['a', 'b'] 0 := by
  refine c7_theorem (fun _ => 0) (fun _ => 0) infZmix (fun _ => none) ?_ ?_ ['a', 'b'] 0
  · intro s
    unfold infZmix
    by_cases h : s = ['a', 'b']
    · rw [if_pos h, h]
      show ZeroAtOff 2 0 [(0, 0), (1, 2)]
      decide
    · rw [if_neg h]
      exact trivial
  · intro s hs
    unfold infZmix at hs ⊢
    by_cases h : s = ['a', 'b']
    · rw [if_pos h]
      decide
    · rw [if_neg h] at hs
      exact absurd rfl hs

/-- C8: exception handling takes precedence over affix stripping, before
any prefix is stripped and after each stripping step: whenever the
current substring is an exception-table key, the stripping loop returns
it immediately, detaching no further prefix or suffix; and a raw
unstripped non-empty run that is itself a key is resolved entirely
through the table — `_split_affixes` returns no prefix, suffix or infix
tokens and exactly the table-driven sub-token spans — even if a prefix
or suffix pattern also matches it. -/
theorem c8_theorem {cfg : TokenizerCfg} :
    (∀ (fuel : Nat) (s : List Char) (pos : Int) (pres sufs : List TokenMeta),
      (cfg.specials s).isSome = true →
      affixLoop cfg (fuel + 1) s pos pres sufs = some (s, pos, pres, sufs)) ∧
    (∀ (s : List Char) (pos : Int) (entry : List (List Char)), s ≠ [] →
      cfg.specials s = some entry →
      splitAffixes cfg s pos = some ([], pos, [], [], [], specialTokenMeta entry pos)) := by
  constructor
  · intro fuel s pos pres sufs h
    exact affixLoop_special h
  · intro s pos entry hs hsp
    have hlen : ¬(s.length = 0) := by simpa using hs
    unfold splitAffixes
    rw [if_neg hlen, affixLoop_special (by simp [hsp])]
    simp only [hsp]

/-- C8, witness: the run `"ab"` is a key of `cfgExc`'s table. -/
theorem c8_witness :
    affixLoop cfgExc 1 ['a', 'b'] 0 [] [] = some (['a', 'b'], 0, [], []) ∧
    splitAffixes cfgExc ['a', 'b'] 0
      = some ([], 0, [], [], [], specialTokenMeta [['a', 'b', 'c']] 0) :=
  ⟨(@c8_theorem cfgExc).1 0 ['a', 'b'] 0 [] [] (by decide),
   (@c8_theorem cfgExc).2 ['a', 'b'] 0 [['a', 'b', 'c']] (by decide)
     (by decide)⟩

/-- C9, counterexample: with a prefix matcher consuming the whole
one-character run `"("`, affix stripping consumes the entire run and
`_split_affixes` returns with all three outcome groups empty — no
special-case tokens, an empty remaining substring, and no infix
tokens — so "exactly one of the three is non-empty" fails. -/
theorem c9_counterexample :
    WFcfg cfgPar ∧
    splitAffixes cfgPar ['('] 0
      = some ([], 1, [⟨0, some 0, false, false⟩], [], [], []) ∧
    ¬ exactlyOneNonempty [] [] [] :=
  ⟨cfgPar_wf, by decide, by decide⟩

/-- C9, amended: for a well-formed configuration and a non-empty run, at
most one of the three outcome groups {special-case tokens, remaining
core substring, infix tokens} is non-empty; and when all three are
empty, the run was entirely consumed by affix stripping, so the
prefix/suffix token lists are non-empty. -/
theorem c9_theorem {cfg : TokenizerCfg} (hwf : WFcfg cfg) {s : List Char}
    (hs : s ≠ []) {pos pos1 : Int} {mid : List Char}
    {pres sufs infs specs : List TokenMeta}
    (h : splitAffixes cfg s pos = some (mid, pos1, pres, sufs, infs, specs)) :
    atMostOneNonempty specs mid infs ∧
    (specs = [] → mid = [] → infs = [] → pres ++ sufs ≠ []) := by
  constructor
  · unfold atMostOneNonempty
    rcases splitAffixes_branches h with ⟨h1, h2⟩ | ⟨h1, h2⟩ | ⟨h1, h2⟩
    · exact ⟨fun _ => ⟨h1, h2⟩, fun hx => absurd h1 hx, fun hx => absurd h2 hx⟩
    · exact ⟨fun hx => absurd h2 hx, fun hx => absurd h1 hx, fun _ => ⟨h2, h1⟩⟩
    · exact ⟨fun hx => absurd h1 hx, fun _ => ⟨h1, h2⟩, fun hx => absurd h2 hx⟩
  · intro he1 he2 he3
    obtain ⟨s1, p1, pr, su, inf1, sp1, heq, htile, hne, -⟩ :=
      splitAffixes_spec hwf hs pos
    rw [h] at heq
    simp only [Option.some.injEq, Prod.mk.injEq] at heq
    obtain ⟨e1, e2, e3, e4, e5, e6⟩ := heq
    subst e1
    subst e2
    subst e3
    subst e4
    subst e5
    subst e6
    intro hcon
    have hp : pres = [] := by
      cases pres with
      | nil => rfl
      | cons a l => simp at hcon
    have hsu : sufs = [] := by
      rw [hp] at hcon
      simpa using hcon
    apply hne
    rw [he1, he2, he3, hp, hsu]
    rfl

/-- C9, witness of the amended theorem at the run `"("` of `cfgPar`. -/
theorem c9_witness :
    atMostOneNonempty [] [] [] ∧
    (([] : List TokenMeta) = [] → ([] : List Char) = [] →
      ([] : List TokenMeta) = [] →
      [(⟨0, some 0, false, false⟩ : TokenMeta)] ++ [] ≠ []) := by
  have h : splitAffixes cfgPar ['('] 0
      = some ([], 1, [⟨0, some 0, false, false⟩], [], [], []) := by decide
  exact c9_theorem cfgPar_wf (by decide) h

/-- C10: when the run contributes at least one token, `_attach_tokens`
extends the document with exactly the run's tokens and the pop/overwrite
fix-up changes only the `space_after` flag of the run's last emitted
token, setting it to the boundary flag observed by the scanner for the
original run: the previously appended document spans are unchanged, the
tokens before the last are unchanged, and the last token keeps its
`start_pos`, `end_pos` and `is_space` fields. -/
theorem c10_theorem (doc : List TokenMeta) (s : List Char) (pos : Int) (sa : Bool)
    (pres sufs infs specs : List TokenMeta)
    (h : runTokens s pos pres sufs infs specs ≠ []) :
    attachTokens doc s pos sa pres sufs infs specs =
      some (doc ++ setLastSpace sa (runTokens s pos pres sufs infs specs)) ∧
    (setLastSpace sa (runTokens s pos pres sufs infs specs)).dropLast
      = (runTokens s pos pres sufs infs specs).dropLast ∧
    (setLastSpace sa (runTokens s pos pres sufs infs specs)).getLastD dTok
      = { (runTokens s pos pres sufs infs specs).getLastD dTok with
          space_after := sa } :=
  ⟨attachTokens_eq h, setLastSpace_dropLast, setLastSpace_getLastD h⟩

/-- C10, witness: attaching the single core token of the run `"a"` to a
document holding one earlier span. -/
theorem c10_witness :
    attachTokens [⟨5, some 6, false, false⟩] ['a'] 0 true [] [] [] []
      = some ([⟨5, some 6, false, false⟩] ++
        setLastSpace true (runTokens ['a'] 0 [] [] [] [])) ∧
    (setLastSpace true (runTokens ['a'] 0 [] [] [] [])).dropLast
      = (runTokens ['a'] 0 [] [] [] []).dropLast ∧
    (setLastSpace true (runTokens ['a'] 0 [] [] [] [])).getLastD dTok
      = { (runTokens ['a'] 0 [] [] [] []).getLastD dTok with space_after := true } :=
  c10_theorem [⟨5, some 6, false, false⟩] ['a'] 0 true [] [] [] [] (by decide)

end Tok
